import Mathlib

/-!
Verification of the terminal-reflowjs text reflow library.

The library's transforms (hard-wrap, word-wrap, truncate, indent) stream
characters through an ANSI-escape scanner.  Strings are modelled as
`List Char` (the TypeScript code iterates code points with `for … of`);
the `string-width` library is modelled as an arbitrary per-rune width
function `w : Char → Nat`, summed over runes.
-/

namespace Reflow

/-- ESC marker character (0x1B), `ANSI_MARKER` in `src/ansi`. -/
def ANSI_MARKER : Char := '\x1B'

/-- Canonical reset sequence `ESC[0m` (`ANSI_RESET` in `src/ansi`). -/
def ANSI_RESET : List Char := ['\x1B', '[', '0', 'm']

/-- `isAnsiTerminator` from `src/ansi`: code point in [0x40,0x5A] ∪ [0x61,0x7A]. -/
def isAnsiTerminator (c : Char) : Bool :=
  (0x40 ≤ c.toNat && c.toNat ≤ 0x5a) || (0x61 ≤ c.toNat && c.toNat ≤ 0x7a)

/-- One step of the in-ANSI scanner state shared by all the writers:
ESC opens a sequence, a terminator char closes it. -/
def ansiStep (ansi : Bool) (c : Char) : Bool :=
  if c = ANSI_MARKER then true
  else if ansi then !(isAnsiTerminator c) else false

/-- Scanner state after a list of characters. -/
def scanAnsi (ansi : Bool) (l : List Char) : Bool := l.foldl ansiStep ansi

/-- The characters of `l` that the scanner classifies as visible (plain
runes outside any ANSI sequence), starting from scanner state `ansi`;
this is the `visible` accumulation of `printableRuneWidth` in `src/ansi`. -/
def visibleChars (ansi : Bool) : List Char → List Char
  | [] => []
  | c :: cs =>
    (if c ≠ ANSI_MARKER ∧ ansi = false then [c] else []) ++
      visibleChars (ansiStep ansi c) cs

/-- Sum of per-rune widths: model of `stringWidth` on a plain string. -/
def widthSum (w : Char → Nat) (l : List Char) : Nat := (l.map w).sum

/-- `printableRuneWidth` from `src/ansi`: width of the visible characters. -/
def printableRuneWidth (w : Char → Nat) (l : List Char) : Nat :=
  widthSum w (visibleChars false l)

/-- Sequence scanner: runs the ANSI automaton from state
`(inAnsi, current partial sequence)`, returning the final state and the
list of completed ANSI sequences (each from its ESC to its terminator). -/
def seqScan : Bool × List Char → List Char → (Bool × List Char) × List (List Char)
  | st, [] => (st, [])
  | (ansi, acc), c :: cs =>
    if c = ANSI_MARKER then seqScan (true, (if ansi then acc else []) ++ [c]) cs
    else if ansi then
      if isAnsiTerminator c then
        let r := seqScan (false, []) cs
        (r.1, (acc ++ [c]) :: r.2)
      else seqScan (true, acc ++ [c]) cs
    else seqScan (false, acc) cs

/-- Completed ANSI sequences of a string. -/
def ansiSeqsOf (l : List Char) : List (List Char) := (seqScan (false, []) l).2

/-- Dangling residue: the trailing unterminated partial sequence. -/
def ansiResidue (l : List Char) : List Char := ((seqScan (false, []) l).1).2

/-- End-of-scan openness of a string from a closed start. -/
def ansiOpenAtEnd (l : List Char) : Bool := ((seqScan (false, []) l).1).1

/-! ## AnsiBuffer (`src/ansi`, class `AnsiBuffer` / `AnsiWriter`)

The buffering style tracker used by the truncate writer.  Output is the
list of pushed elements (single plain characters and whole completed
sequences); a partial sequence is held in `ansiSeq` until its terminator
arrives. -/

structure AnsiBuffer where
  output : List (List Char)
  ansiSeq : List Char
  lastSeq : List Char
  inAnsi : Bool
  seqChanged : Bool
deriving DecidableEq, Repr

/-- Fresh buffer: all fields empty/false. -/
def AnsiBuffer.init : AnsiBuffer := ⟨[], [], [], false, false⟩

/-- `AnsiBuffer.write`, one character: mirrors the per-character body of
the `for` loop in `AnsiBuffer.write` / `AnsiWriter.write`. -/
def AnsiBuffer.writeChar (b : AnsiBuffer) (c : Char) : AnsiBuffer :=
  if c = ANSI_MARKER then
    { b with inAnsi := true, seqChanged := true, ansiSeq := b.ansiSeq ++ [c] }
  else if b.inAnsi then
    let seq := b.ansiSeq ++ [c]
    if isAnsiTerminator c then
      { output := b.output ++ [seq]
        ansiSeq := []
        lastSeq := if seq = ANSI_RESET then [] else if c = 'm' then seq else b.lastSeq
        inAnsi := false
        seqChanged := if seq = ANSI_RESET then false else b.seqChanged }
    else { b with ansiSeq := seq }
  else { b with output := b.output ++ [[c]] }

/-- `AnsiBuffer.write` on a whole string. -/
def AnsiBuffer.write (b : AnsiBuffer) (l : List Char) : AnsiBuffer :=
  l.foldl AnsiBuffer.writeChar b

/-- `AnsiBuffer.getLastSequence`. -/
def AnsiBuffer.getLastSequence (b : AnsiBuffer) : List Char := b.lastSeq

/-- `AnsiBuffer.resetAnsi`: push a reset iff a style change is pending.
Note the source does not clear `seqChanged` here. -/
def AnsiBuffer.resetAnsi (b : AnsiBuffer) : AnsiBuffer :=
  if b.seqChanged then { b with output := b.output ++ [ANSI_RESET] } else b

/-- `AnsiBuffer.toString`: join of all pushed elements. -/
def AnsiBuffer.render (b : AnsiBuffer) : List Char := b.output.flatten

/-! ## AnsiPassthrough (`src/ansi`, class `AnsiPassthrough`)

The forwarding style tracker used by the indent writer.  The forward
sink is modelled as an accumulated character list. -/

structure AnsiPassthrough where
  forwarded : List Char
  ansi : Bool
  ansiseq : List Char
  lastseq : List Char
  seqchanged : Bool
deriving DecidableEq, Repr

/-- Fresh passthrough over an empty sink. -/
def AnsiPassthrough.init : AnsiPassthrough := ⟨[], false, [], [], false⟩

/-- `AnsiPassthrough.write`, one character.  Completion of a sequence
compares with `endsWith("[0m")`, unlike `AnsiBuffer`'s full equality. -/
def AnsiPassthrough.writeChar (p : AnsiPassthrough) (c : Char) : AnsiPassthrough :=
  if c = ANSI_MARKER then
    { p with ansi := true, seqchanged := true, ansiseq := p.ansiseq ++ [c] }
  else if p.ansi then
    let seq := p.ansiseq ++ [c]
    if isAnsiTerminator c then
      { forwarded := p.forwarded ++ seq
        ansi := false
        ansiseq := []
        lastseq :=
          if ['[', '0', 'm'].isSuffixOf seq then []
          else if c = 'm' then seq else p.lastseq
        seqchanged := if ['[', '0', 'm'].isSuffixOf seq then false else p.seqchanged }
    else { p with ansiseq := seq }
  else { p with forwarded := p.forwarded ++ [c] }

/-- `AnsiPassthrough.write` on a whole string. -/
def AnsiPassthrough.write (p : AnsiPassthrough) (l : List Char) : AnsiPassthrough :=
  l.foldl AnsiPassthrough.writeChar p

/-- `AnsiPassthrough.getLastSequence`. -/
def AnsiPassthrough.getLastSequence (p : AnsiPassthrough) : List Char := p.lastseq

/-- `AnsiPassthrough.resetAnsi`: forward a reset iff a style change is
pending; the flag is not cleared by the source. -/
def AnsiPassthrough.resetAnsi (p : AnsiPassthrough) : AnsiPassthrough :=
  if p.seqchanged then { p with forwarded := p.forwarded ++ ANSI_RESET } else p

/-- `AnsiPassthrough.restoreAnsi`: re-emit the last style sequence. -/
def AnsiPassthrough.restoreAnsi (p : AnsiPassthrough) : AnsiPassthrough :=
  { p with forwarded := p.forwarded ++ p.lastseq }

/-! ## TruncateWriter (`src/truncate`, the draft with a `truncated` flag)

Streams characters, counting printable width against the budget
`width - printableRuneWidth tail`; the moment the budget is exceeded the
tail is emitted, a reset is appended when a style is recorded, and the
writer is latched `truncated`. -/

structure TruncateWriter where
  width : Nat
  tail : List Char
  ansiBuffer : AnsiBuffer
  inAnsi : Bool
  truncated : Bool
deriving DecidableEq, Repr

/-- Fresh truncate writer. -/
def TruncateWriter.init (width : Nat) (tail : List Char) : TruncateWriter :=
  ⟨width, tail, AnsiBuffer.init, false, false⟩

/-- The in-ANSI update of the classification step at the top of the
`TruncateWriter.write` loop. -/
def truncStep (inAnsi : Bool) (c : Char) : Bool :=
  if c = ANSI_MARKER then true
  else if inAnsi then !(isAnsiTerminator c) else inAnsi

/-- The `currentWidth` update of the same classification step: only a
plain character adds its width. -/
def truncWidthStep (w : Char → Nat) (inAnsi : Bool) (cw : Nat) (c : Char) : Nat :=
  if c = ANSI_MARKER then cw else if inAnsi then cw else cw + w c

/-- The character loop of `TruncateWriter.write`: classify the character,
check the budget (the `return` on overflow emits the tail and a reset when
a last sequence is recorded), otherwise forward to the buffer.  Returns
the buffer, the in-ANSI flag and the truncated flag. -/
def truncGo (w : Char → Nat) (availableWidth : Nat) (tail : List Char)
    (b : AnsiBuffer) (inAnsi : Bool) (currentWidth : Nat) :
    List Char → AnsiBuffer × Bool × Bool
  | [] => (b, inAnsi, false)
  | c :: cs =>
    if availableWidth < truncWidthStep w inAnsi currentWidth c then
      let b1 := b.write tail
      let b2 := if b1.getLastSequence ≠ [] then b1.resetAnsi else b1
      (b2, truncStep inAnsi c, true)
    else truncGo w availableWidth tail (b.writeChar c) (truncStep inAnsi c)
      (truncWidthStep w inAnsi currentWidth c) cs

/-- `TruncateWriter.write`: no-op once truncated; degenerate case when the
width is smaller than the tail's printable width; otherwise the scan. -/
def TruncateWriter.write (w : Char → Nat) (t : TruncateWriter) (content : List Char) :
    TruncateWriter :=
  if t.truncated then t
  else
    let tailWidth := printableRuneWidth w t.tail
    if t.width < tailWidth then
      { t with ansiBuffer := t.ansiBuffer.write t.tail, truncated := true }
    else
      let r := truncGo w (t.width - tailWidth) t.tail t.ansiBuffer t.inAnsi 0 content
      { t with ansiBuffer := r.1, inAnsi := r.2.1, truncated := r.2.2 }

/-- `TruncateWriter.toString`. -/
def TruncateWriter.render (t : TruncateWriter) : List Char := t.ansiBuffer.render

/-- One-shot `truncate(s, width, {tail})`. -/
def truncate (w : Char → Nat) (s : List Char) (width : Nat) (tail : List Char) :
    List Char :=
  ((TruncateWriter.init width tail).write w s).render

/-! ## HardWrapWriter (`src/hardwrap`)

Breaks at exact character boundaries; ANSI sequences pass through with
zero width; tabs expand to `tabWidth` spaces; `\n`, `\r` and the
characters of the configured newline string count as newlines. -/

structure HardWrap where
  limit : Nat
  newline : List Char
  keepNewlines : Bool
  preserveSpace : Bool
  tabWidth : Nat
  buf : List (List Char)
  lineLen : Nat
  ansi : Bool
deriving DecidableEq, Repr

/-- Fresh hard-wrap writer. -/
def HardWrap.init (limit : Nat) (newline : List Char)
    (keepNewlines preserveSpace : Bool) (tabWidth : Nat) : HardWrap :=
  ⟨limit, newline, keepNewlines, preserveSpace, tabWidth, [], 0, false⟩

/-- The tab-expansion `while` loop of `HardWrapWriter.write`, on the
remaining count: wrap when the line is full, and when `preserveSpace` is
false a wrap breaks out of the expansion. -/
def hwTab (st : HardWrap) : Nat → HardWrap
  | 0 => st
  | r + 1 =>
    if 0 < st.limit ∧ st.limit ≤ st.lineLen then
      let st' := { st with buf := st.buf ++ [st.newline], lineLen := 0 }
      if st.preserveSpace then
        hwTab { st' with buf := st'.buf ++ [[' ']], lineLen := 1 } r
      else st'
    else hwTab { st with buf := st.buf ++ [[' ']], lineLen := st.lineLen + 1 } r

/-- One character of `HardWrapWriter.write`. -/
def HardWrap.writeChar (w : Char → Nat) (st : HardWrap) (c : Char) : HardWrap :=
  if c = ANSI_MARKER then { st with buf := st.buf ++ [[c]], ansi := true }
  else if st.ansi then { st with buf := st.buf ++ [[c]], ansi := !(isAnsiTerminator c) }
  else if c = '\n' ∨ c = '\r' ∨ c ∈ st.newline then
    if st.keepNewlines then { st with buf := st.buf ++ [st.newline], lineLen := 0 }
    else st
  else if c = '\t' ∧ 0 < st.tabWidth then hwTab st st.tabWidth
  else
    let cw := w c
    if 0 < st.limit ∧ st.limit < st.lineLen + cw then
      let st' := { st with buf := st.buf ++ [st.newline], lineLen := 0 }
      if st.preserveSpace = false ∧ c = ' ' then st'
      else { st' with buf := st'.buf ++ [[c]], lineLen := cw }
    else { st with buf := st.buf ++ [[c]], lineLen := st.lineLen + cw }

/-- `HardWrapWriter.write` on a whole string. -/
def HardWrap.write (w : Char → Nat) (st : HardWrap) (l : List Char) : HardWrap :=
  l.foldl (HardWrap.writeChar w) st

/-- `HardWrapWriter.toString`. -/
def HardWrap.render (st : HardWrap) : List Char := st.buf.flatten

/-- One-shot `hardwrap` with explicit options. -/
def hardwrap (w : Char → Nat) (s : List Char) (limit : Nat) (newline : List Char)
    (keepNewlines preserveSpace : Bool) (tabWidth : Nat) : List Char :=
  ((HardWrap.init limit newline keepNewlines preserveSpace tabWidth).write w s).render

/-- One-shot `hardwrap(s, limit)` at the default options
(newline `"\n"`, keepNewlines true, preserveSpace false, tabWidth 4). -/
def hardwrapD (w : Char → Nat) (s : List Char) (limit : Nat) : List Char :=
  hardwrap w s limit ['\n'] true false 4

/-! ## WordWrapWriter (`src/wordwrap`)

The buffer is modelled as a list of tagged chunks, one per `buf.push`
site of the source (`"\n"`, a space run, a breakpoint character, a word);
`render` joins them, matching `toString`. -/

inductive WChunk where
  | nl : WChunk
  | sp : List Char → WChunk
  | brk : Char → WChunk
  | word : List Char → WChunk
deriving DecidableEq, Repr

/-- The string a chunk contributes to the output. -/
def WChunk.render : WChunk → List Char
  | .nl => ['\n']
  | .sp l => l
  | .brk c => [c]
  | .word l => l

structure WordWrap where
  limit : Nat
  breakpoints : List Char
  newline : List Char
  keepNewlines : Bool
  buf : List WChunk
  lineLen : Nat
  ansi : Bool
  space : List Char
  word : List Char
  wordLen : Nat
deriving DecidableEq, Repr

/-- Fresh word-wrap writer at the default options
(breakpoints space and hyphen, newline `\n`, keepNewlines true). -/
def WordWrap.init (limit : Nat) : WordWrap :=
  ⟨limit, [' ', '-'], ['\n'], true, [], 0, false, [], [], 0⟩

/-- `WordWrapWriter.flushWordOnly`. -/
def WordWrap.flushWordOnly (w : Char → Nat) (st : WordWrap) : WordWrap :=
  if st.word = [] then st
  else
    let spaceWidth := widthSum w st.space
    let st1 :=
      if 0 < st.limit ∧ 0 < st.lineLen then
        if st.limit < st.lineLen + spaceWidth + st.wordLen then
          { st with buf := st.buf ++ [.nl], lineLen := 0, space := [] }
        else if 0 < spaceWidth then
          { st with
            buf := st.buf ++ [(.sp st.space)]
            lineLen := st.lineLen + spaceWidth
            space := [] }
        else { st with space := [] }
      else if st.lineLen = 0 then
        if st.keepNewlines = false then { st with space := [] }
        else if 0 < spaceWidth ∧ (st.limit = 0 ∨ spaceWidth ≤ st.limit) then
          { st with
            buf := st.buf ++ [(.sp st.space)]
            lineLen := st.lineLen + spaceWidth
            space := [] }
        else { st with space := [] }
      else
        if 0 < spaceWidth then
          { st with
            buf := st.buf ++ [(.sp st.space)]
            lineLen := st.lineLen + spaceWidth
            space := [] }
        else { st with space := [] }
    { st1 with
      buf := st1.buf ++ [(.word st.word)]
      lineLen := st1.lineLen + st.wordLen
      word := []
      wordLen := 0 }

/-- `WordWrapWriter.flushWordAndSpace`. -/
def WordWrap.flushWordAndSpace (w : Char → Nat) (st : WordWrap) : WordWrap :=
  let st1 := if st.word = [] then st else st.flushWordOnly w
  if st1.space = [] then st1
  else
    let spaceWidth := widthSum w st1.space
    if st1.limit = 0 ∨ st1.lineLen + spaceWidth ≤ st1.limit then
      { st1 with
        buf := st1.buf ++ [(.sp st1.space)]
        lineLen := st1.lineLen + spaceWidth
        space := [] }
    else { st1 with space := [] }

/-- One character of `WordWrapWriter.write`. -/
def WordWrap.writeChar (w : Char → Nat) (st : WordWrap) (c : Char) : WordWrap :=
  if c = ANSI_MARKER then { st with word := st.word ++ [c], ansi := true }
  else if st.ansi then
    { st with word := st.word ++ [c], ansi := !(isAnsiTerminator c) }
  else if c ∈ st.newline then
    if st.keepNewlines then
      let st1 := st.flushWordAndSpace w
      { st1 with buf := st1.buf ++ [.nl], lineLen := 0 }
    else
      let st1 := st.flushWordOnly w
      if st1.space = [] ∨ st1.space.getLast? ≠ some ' ' then
        { st1 with space := st1.space ++ [' '] }
      else st1
  else if c ∈ st.breakpoints then
    let st1 := st.flushWordOnly w
    if c = ' ' ∨ c = '\t' then { st1 with space := st1.space ++ [c] }
    else
      let st2 :=
        if st1.space = [] then st1
        else
          let spaceWidth := widthSum w st1.space
          if st1.limit = 0 ∨ st1.lineLen + spaceWidth ≤ st1.limit then
            { st1 with
              buf := st1.buf ++ [(.sp st1.space)]
              lineLen := st1.lineLen + spaceWidth
              space := [] }
          else { st1 with space := [] }
      if st2.limit = 0 ∨ st2.lineLen + w c ≤ st2.limit then
        { st2 with buf := st2.buf ++ [(.brk c)], lineLen := st2.lineLen + w c }
      else st2
  else { st with word := st.word ++ [c], wordLen := st.wordLen + w c }

/-- `WordWrapWriter.write` on a whole string. -/
def WordWrap.write (w : Char → Nat) (st : WordWrap) (l : List Char) : WordWrap :=
  l.foldl (WordWrap.writeChar w) st

/-- Trailing-whitespace pop loop of `close` (only single-character `" "` or
`"\t"` pushes match the comparison in the source). -/
def popTrailingWS (l : List WChunk) : List WChunk :=
  (l.reverse.dropWhile (fun ch => ch.render == [' '] || ch.render == ['\t'])).reverse

/-- `WordWrapWriter.close`. -/
def WordWrap.close (w : Char → Nat) (st : WordWrap) : WordWrap :=
  let st1 := st.flushWordAndSpace w
  if st1.keepNewlines then st1 else { st1 with buf := popTrailingWS st1.buf }

/-- `WordWrapWriter.toString`. -/
def WordWrap.render (st : WordWrap) : List Char := (st.buf.map WChunk.render).flatten

/-- Final buffer of the one-shot `wordwrap` at default options. -/
def wwBuf (w : Char → Nat) (limit : Nat) (s : List Char) : List WChunk :=
  (((WordWrap.init limit).write w s).close w).buf

/-- One-shot `wordwrap(s, limit)` at default options. -/
def wordwrapD (w : Char → Nat) (s : List Char) (limit : Nat) : List Char :=
  ((((WordWrap.init limit).write w s).close w)).render

/-! ## IndentWriter (`src/indent`, the ANSI-aware class built on
`AnsiPassthrough`) and the closure-based indent writer of the module with
a `closed` flag. -/

structure IndentWriter where
  indentN : Nat
  pass : AnsiPassthrough
  skipIndent : Bool
  inAnsi : Bool
deriving DecidableEq, Repr

/-- Fresh indent writer (default behaviour: one space per unit). -/
def IndentWriter.init (n : Nat) : IndentWriter := ⟨n, AnsiPassthrough.init, false, false⟩

/-- One character of `IndentWriter.write`: on the first plain character of
a line, reset the style, write the indent, restore the style; every
character is then forwarded through the passthrough. -/
def IndentWriter.writeChar (st : IndentWriter) (c : Char) : IndentWriter :=
  let st1 :=
    if c = ANSI_MARKER then { st with inAnsi := true }
    else if st.inAnsi then
      if isAnsiTerminator c then { st with inAnsi := false } else st
    else
      let stA :=
        if st.skipIndent = false then
          { st with
            pass := ((st.pass.resetAnsi).write (List.replicate st.indentN ' ')).restoreAnsi
            skipIndent := true }
        else st
      if c = '\n' then { stA with skipIndent := false } else stA
  { st1 with pass := st1.pass.writeChar c }

/-- `IndentWriter.write` on a whole string. -/
def IndentWriter.write (st : IndentWriter) (l : List Char) : IndentWriter :=
  l.foldl IndentWriter.writeChar st

/-- `IndentWriter.toString`. -/
def IndentWriter.render (st : IndentWriter) : List Char := st.pass.forwarded

/-- One-shot `indent(s, spaces)` of the ANSI-aware indent module. -/
def indentStr (s : List Char) (n : Nat) : List Char :=
  ((IndentWriter.init n).write s).render

/-- State of the closure returned by the other indent module's
`newWriter(width, null)`: a buffer, a line-start flag, a closed flag. -/
structure IndentNW where
  width : Nat
  buffer : List Char
  lineStart : Bool
  closed : Bool
deriving DecidableEq, Repr

/-- Fresh closure state (`buffer = ''`, `lineStart = true`, `closed = false`). -/
def IndentNW.init (width : Nat) : IndentNW := ⟨width, [], true, false⟩

/-- One character of the closure's `write` loop (default indent function:
`width` spaces). -/
def IndentNW.writeChar (st : IndentNW) (c : Char) : IndentNW :=
  let st1 :=
    if st.lineStart ∧ c ≠ '\n' then
      { st with buffer := st.buffer ++ List.replicate st.width ' ', lineStart := false }
    else st
  let st2 := { st1 with buffer := st1.buffer ++ [c] }
  if c = '\n' then { st2 with lineStart := true } else st2

/-- The closure's `write`: throws `'Writer is closed'` when closed, else
processes every character. -/
def IndentNW.write (st : IndentNW) (s : List Char) : Except (List Char) IndentNW :=
  if st.closed then Except.error "Writer is closed".toList
  else Except.ok (s.foldl IndentNW.writeChar st)

/-- The closure's `close`: marks the writer closed. -/
def IndentNW.close (st : IndentNW) : IndentNW := { st with closed := true }

/-- The unit width function, a concrete instance of the `stringWidth`
parameter for witnesses. -/
def unitWidth : Char → Nat := fun _ => 1

/-! ## Scanner lemmas -/

theorem scanAnsi_nil (a : Bool) : scanAnsi a [] = a := rfl

theorem scanAnsi_cons (a : Bool) (c : Char) (l : List Char) :
    scanAnsi a (c :: l) = scanAnsi (ansiStep a c) l := rfl

theorem scanAnsi_append (a : Bool) (x y : List Char) :
    scanAnsi a (x ++ y) = scanAnsi (scanAnsi a x) y := by
  simp [scanAnsi, List.foldl_append]

theorem widthSum_nil (w : Char → Nat) : widthSum w [] = 0 := rfl

theorem widthSum_append (w : Char → Nat) (x y : List Char) :
    widthSum w (x ++ y) = widthSum w x + widthSum w y := by
  simp [widthSum]

theorem visibleChars_append (x y : List Char) (a : Bool) :
    visibleChars a (x ++ y) = visibleChars a x ++ visibleChars (scanAnsi a x) y := by
  induction x generalizing a with
  | nil => simp [visibleChars, scanAnsi_nil]
  | cons c cs ih => simp [visibleChars, ih, scanAnsi_cons]

theorem seqScan_nil (st : Bool × List Char) : seqScan st [] = (st, []) := rfl

theorem seqScan_cons (a : Bool) (acc : List Char) (c : Char) (cs : List Char) :
    seqScan (a, acc) (c :: cs) =
      if c = ANSI_MARKER then seqScan (true, (if a then acc else []) ++ [c]) cs
      else if a then
        if isAnsiTerminator c then
          ((seqScan (false, []) cs).1, (acc ++ [c]) :: (seqScan (false, []) cs).2)
        else seqScan (true, acc ++ [c]) cs
      else seqScan (false, acc) cs := rfl

theorem seqScan_append (x y : List Char) (st : Bool × List Char) :
    seqScan st (x ++ y) =
      ((seqScan (seqScan st x).1 y).1,
        (seqScan st x).2 ++ (seqScan (seqScan st x).1 y).2) := by
  induction x generalizing st with
  | nil => simp [seqScan_nil]
  | cons c cs ih =>
    obtain ⟨a, acc⟩ := st
    by_cases hc : c = ANSI_MARKER
    · simp [seqScan_cons, hc, ih]
    · by_cases ha : a
      · by_cases ht : isAnsiTerminator c
        · simp [seqScan_cons, hc, ha, ht, ih]
        · simp [seqScan_cons, hc, ha, ht, ih]
      · simp [seqScan_cons, hc, ha, ih]

theorem seqScan_state_fst (l : List Char) :
    ∀ (a : Bool) (acc : List Char), ((seqScan (a, acc) l).1).1 = scanAnsi a l := by
  induction l with
  | nil => intro a acc; rfl
  | cons c cs ih =>
    intro a acc
    by_cases hc : c = ANSI_MARKER
    · simp [seqScan_cons, hc, ih, scanAnsi_cons, ansiStep]
    · by_cases ha : a
      · by_cases ht : isAnsiTerminator c
        · simp [seqScan_cons, hc, ha, ht, ih, scanAnsi_cons, ansiStep]
        · simp [seqScan_cons, hc, ha, ht, ih, scanAnsi_cons, ansiStep]
      · simp [seqScan_cons, hc, ha, ih, scanAnsi_cons, ansiStep]

theorem seqScan_single_plain (a : Bool) (acc : List Char) (c : Char)
    (hc : c ≠ ANSI_MARKER) (ha : a = false) :
    seqScan (a, acc) [c] = ((false, acc), []) := by
  subst ha; simp [seqScan_cons, hc, seqScan_nil]

/-- Appending a non-ESC character at a closed scan point changes nothing
about the sequence scan. -/
theorem seqScan_append_plain (x : List Char) (c : Char) (st : Bool × List Char)
    (h1 : ((seqScan st x).1).1 = false) (h2 : c ≠ ANSI_MARKER) :
    seqScan st (x ++ [c]) = seqScan st x := by
  rw [seqScan_append]
  have h : (seqScan st x).1 = (false, ((seqScan st x).1).2) := by
    rw [← h1]
  rw [h, seqScan_single_plain _ _ _ h2 rfl]
  simp [← h]

/-! ## AnsiBuffer lemmas -/

/-- Branch characterization: writing ESC. -/
theorem AnsiBuffer.writeChar_marker (b : AnsiBuffer) :
    b.writeChar ANSI_MARKER =
      { b with inAnsi := true, seqChanged := true, ansiSeq := b.ansiSeq ++ [ANSI_MARKER] } := by
  simp [AnsiBuffer.writeChar]

/-- Branch characterization: a terminator while inside a sequence. -/
theorem AnsiBuffer.writeChar_term (b : AnsiBuffer) (c : Char) (hc : c ≠ ANSI_MARKER)
    (hb : b.inAnsi = true) (ht : isAnsiTerminator c = true) :
    b.writeChar c =
      ⟨b.output ++ [b.ansiSeq ++ [c]], [],
        if b.ansiSeq ++ [c] = ANSI_RESET then []
        else if c = 'm' then b.ansiSeq ++ [c] else b.lastSeq,
        false,
        if b.ansiSeq ++ [c] = ANSI_RESET then false else b.seqChanged⟩ := by
  simp [AnsiBuffer.writeChar, hc, hb, ht]

/-- Branch characterization: a non-terminator while inside a sequence. -/
theorem AnsiBuffer.writeChar_inseq (b : AnsiBuffer) (c : Char) (hc : c ≠ ANSI_MARKER)
    (hb : b.inAnsi = true) (ht : isAnsiTerminator c = false) :
    b.writeChar c = { b with ansiSeq := b.ansiSeq ++ [c] } := by
  simp [AnsiBuffer.writeChar, hc, hb, ht]

/-- Branch characterization: a plain character outside any sequence. -/
theorem AnsiBuffer.writeChar_plain (b : AnsiBuffer) (c : Char) (hc : c ≠ ANSI_MARKER)
    (hb : b.inAnsi = false) :
    b.writeChar c = { b with output := b.output ++ [[c]] } := by
  simp [AnsiBuffer.writeChar, hc, hb]

theorem AnsiBuffer.write_cons (b : AnsiBuffer) (c : Char) (cs : List Char) :
    b.write (c :: cs) = (b.writeChar c).write cs := rfl

/-- Well-formedness of a buffer state: the joined output scans closed, the
pending partial sequence has no visible characters, its scan state matches
`inAnsi`, and it is empty when no sequence is open. -/
def AnsiBuffer.WF (b : AnsiBuffer) : Prop :=
  scanAnsi false b.render = false ∧
  visibleChars false b.ansiSeq = [] ∧
  scanAnsi false b.ansiSeq = b.inAnsi ∧
  (b.inAnsi = false → b.ansiSeq = [])

theorem AnsiBuffer.WF_init : AnsiBuffer.init.WF :=
  ⟨rfl, rfl, rfl, fun _ => rfl⟩

theorem AnsiBuffer.render_resetAnsi (b : AnsiBuffer) :
    b.resetAnsi.render = if b.seqChanged then b.render ++ ANSI_RESET else b.render := by
  by_cases h : b.seqChanged <;> simp [AnsiBuffer.resetAnsi, AnsiBuffer.render, h]

theorem AnsiBuffer.WF_resetAnsi (b : AnsiBuffer) (h : b.WF) : b.resetAnsi.WF := by
  obtain ⟨h1, h2, h3, h4⟩ := h
  by_cases hs : b.seqChanged
  · have hr : b.resetAnsi = { b with output := b.output ++ [ANSI_RESET] } := by
      simp [AnsiBuffer.resetAnsi, hs]
    rw [hr]
    refine ⟨?_, h2, h3, h4⟩
    show scanAnsi false ((b.output ++ [ANSI_RESET]).flatten) = false
    rw [show (b.output ++ [ANSI_RESET]).flatten = b.render ++ ANSI_RESET by
      simp [AnsiBuffer.render]]
    rw [scanAnsi_append, h1]; decide
  · have hr : b.resetAnsi = b := by simp [AnsiBuffer.resetAnsi, hs]
    rw [hr]; exact ⟨h1, h2, h3, h4⟩

theorem AnsiBuffer.WF_writeChar (b : AnsiBuffer) (c : Char) (h : b.WF) :
    (b.writeChar c).WF := by
  obtain ⟨h1, h2, h3, h4⟩ := h
  by_cases hc : c = ANSI_MARKER
  · subst hc
    rw [AnsiBuffer.writeChar_marker]
    refine ⟨by simpa [AnsiBuffer.render] using h1, ?_, ?_, by simp⟩
    · show visibleChars false (b.ansiSeq ++ [ANSI_MARKER]) = []
      rw [visibleChars_append, h2, h3]
      cases b.inAnsi <;> simp [visibleChars, ansiStep]
    · show scanAnsi false (b.ansiSeq ++ [ANSI_MARKER]) = true
      rw [scanAnsi_append, h3]
      cases b.inAnsi <;> simp [scanAnsi, scanAnsi_cons, ansiStep]
  · by_cases hb : b.inAnsi
    · by_cases ht : isAnsiTerminator c
      · rw [AnsiBuffer.writeChar_term b c hc (by simpa using hb) (by simpa using ht)]
        refine ⟨?_, by simp [visibleChars], by simp [scanAnsi], by simp⟩
        show scanAnsi false ((b.output ++ [b.ansiSeq ++ [c]]).flatten) = false
        rw [show (b.output ++ [b.ansiSeq ++ [c]]).flatten =
          b.render ++ (b.ansiSeq ++ [c]) from by simp [AnsiBuffer.render]]
        rw [scanAnsi_append, h1, scanAnsi_append, h3]
        simp [hb, scanAnsi, scanAnsi_cons, ansiStep, hc, ht]
      · rw [AnsiBuffer.writeChar_inseq b c hc (by simpa using hb) (by simpa using ht)]
        refine ⟨by simpa [AnsiBuffer.render] using h1, ?_, ?_, by simp [hb]⟩
        · show visibleChars false (b.ansiSeq ++ [c]) = []
          rw [visibleChars_append, h2, h3]
          simp [hb, visibleChars, ansiStep]
        · show scanAnsi false (b.ansiSeq ++ [c]) = b.inAnsi
          rw [scanAnsi_append, h3]
          simp [hb, scanAnsi, scanAnsi_cons, ansiStep, hc, ht]
    · have hbf : b.inAnsi = false := by simpa using hb
      have hseq : b.ansiSeq = [] := h4 hbf
      rw [AnsiBuffer.writeChar_plain b c hc hbf]
      refine ⟨?_, by simpa using h2, by simpa [hbf] using h3, fun _ => by simpa using hseq⟩
      show scanAnsi false ((b.output ++ [[c]]).flatten) = false
      rw [show (b.output ++ [[c]]).flatten = b.render ++ [c] from by simp [AnsiBuffer.render]]
      rw [scanAnsi_append, h1]
      simp [scanAnsi, scanAnsi_cons, ansiStep, hc]

theorem AnsiBuffer.WF_write (b : AnsiBuffer) (l : List Char) (h : b.WF) :
    (b.write l).WF := by
  induction l generalizing b with
  | nil => simpa [AnsiBuffer.write]
  | cons c cs ih => rw [AnsiBuffer.write_cons]; exact ih _ (b.WF_writeChar c h)

/-- The buffer's in-ANSI flag steps like the scanner. -/
theorem AnsiBuffer.inAnsi_writeChar (b : AnsiBuffer) (c : Char) :
    (b.writeChar c).inAnsi = ansiStep b.inAnsi c := by
  by_cases hc : c = ANSI_MARKER
  · subst hc; rw [AnsiBuffer.writeChar_marker]; simp [ansiStep]
  · by_cases hb : b.inAnsi
    · by_cases ht : isAnsiTerminator c
      · rw [AnsiBuffer.writeChar_term b c hc (by simpa using hb) (by simpa using ht)]
        simp [ansiStep, hc, hb, ht]
      · rw [AnsiBuffer.writeChar_inseq b c hc (by simpa using hb) (by simpa using ht)]
        simp [ansiStep, hc, hb, ht]
    · have hbf : b.inAnsi = false := by simpa using hb
      rw [AnsiBuffer.writeChar_plain b c hc hbf]
      simp [ansiStep, hc, hbf]

/-- The join of the output plus the pending partial sequence accumulates
exactly the written characters. -/
theorem AnsiBuffer.accum_writeChar (b : AnsiBuffer) (c : Char) (h : b.WF) :
    (b.writeChar c).render ++ (b.writeChar c).ansiSeq = b.render ++ b.ansiSeq ++ [c] := by
  obtain ⟨h1, h2, h3, h4⟩ := h
  by_cases hc : c = ANSI_MARKER
  · subst hc; rw [AnsiBuffer.writeChar_marker]; simp [AnsiBuffer.render]
  · by_cases hb : b.inAnsi
    · by_cases ht : isAnsiTerminator c
      · rw [AnsiBuffer.writeChar_term b c hc (by simpa using hb) (by simpa using ht)]
        simp [AnsiBuffer.render]
      · rw [AnsiBuffer.writeChar_inseq b c hc (by simpa using hb) (by simpa using ht)]
        simp [AnsiBuffer.render]
    · have hbf : b.inAnsi = false := by simpa using hb
      rw [AnsiBuffer.writeChar_plain b c hc hbf]
      simp [AnsiBuffer.render, h4 hbf]

theorem AnsiBuffer.accum_write (b : AnsiBuffer) (l : List Char) (h : b.WF) :
    (b.write l).render ++ (b.write l).ansiSeq = b.render ++ b.ansiSeq ++ l := by
  induction l generalizing b with
  | nil => simp [AnsiBuffer.write]
  | cons c cs ih =>
    rw [AnsiBuffer.write_cons, ih _ (b.WF_writeChar c h), AnsiBuffer.accum_writeChar b c h]
    simp

/-- The buffer's pending sequence tracks the sequence scanner. -/
theorem AnsiBuffer.state_write (b : AnsiBuffer) (l : List Char) (h : b.WF) :
    (b.write l).inAnsi = scanAnsi b.inAnsi l ∧
    (b.write l).ansiSeq = ((seqScan (b.inAnsi, b.ansiSeq) l).1).2 := by
  induction l generalizing b with
  | nil => simp [AnsiBuffer.write, seqScan_nil, scanAnsi_nil]
  | cons c cs ih =>
    obtain ⟨h1, h2, h3, h4⟩ := h
    have hwf' := b.WF_writeChar c ⟨h1, h2, h3, h4⟩
    obtain ⟨ih1, ih2⟩ := ih (b.writeChar c) hwf'
    rw [AnsiBuffer.write_cons]
    refine ⟨?_, ?_⟩
    · rw [ih1, AnsiBuffer.inAnsi_writeChar, scanAnsi_cons]
    · rw [ih2, seqScan_cons]
      by_cases hc : c = ANSI_MARKER
      · subst hc
        rw [AnsiBuffer.writeChar_marker]
        by_cases hb : b.inAnsi
        · simp [hb]
        · have hbf : b.inAnsi = false := by simpa using hb
          simp [hbf, h4 hbf]
      · by_cases hb : b.inAnsi
        · by_cases ht : isAnsiTerminator c
          · rw [AnsiBuffer.writeChar_term b c hc (by simpa using hb) (by simpa using ht)]
            simp [hb, hc, ht]
          · rw [AnsiBuffer.writeChar_inseq b c hc (by simpa using hb) (by simpa using ht)]
            simp [hb, hc, ht]
        · have hbf : b.inAnsi = false := by simpa using hb
          rw [AnsiBuffer.writeChar_plain b c hc hbf]
          simp [hbf, hc]

/-- Printable width accounting for a single written character. -/
theorem AnsiBuffer.prw_writeChar (w : Char → Nat) (b : AnsiBuffer) (c : Char) (h : b.WF) :
    printableRuneWidth w (b.writeChar c).render =
      printableRuneWidth w b.render +
        (if b.inAnsi = false ∧ c ≠ ANSI_MARKER then w c else 0) := by
  obtain ⟨h1, h2, h3, h4⟩ := h
  by_cases hc : c = ANSI_MARKER
  · subst hc; rw [AnsiBuffer.writeChar_marker]; simp [AnsiBuffer.render]
  · by_cases hb : b.inAnsi
    · by_cases ht : isAnsiTerminator c
      · rw [AnsiBuffer.writeChar_term b c hc (by simpa using hb) (by simpa using ht)]
        show printableRuneWidth w ((b.output ++ [b.ansiSeq ++ [c]]).flatten) = _
        rw [show (b.output ++ [b.ansiSeq ++ [c]]).flatten = b.render ++ (b.ansiSeq ++ [c]) by
          simp [AnsiBuffer.render]]
        simp only [printableRuneWidth, visibleChars_append, h1, widthSum_append, h2, h3]
        simp [hb, visibleChars, ansiStep, widthSum]
      · rw [AnsiBuffer.writeChar_inseq b c hc (by simpa using hb) (by simpa using ht)]
        simp [AnsiBuffer.render, hb]
    · have hbf : b.inAnsi = false := by simpa using hb
      rw [AnsiBuffer.writeChar_plain b c hc hbf]
      have hr : ({ b with output := b.output ++ [[c]] } : AnsiBuffer).render =
          b.render ++ [c] := by simp [AnsiBuffer.render]
      rw [hr]
      simp only [printableRuneWidth, visibleChars_append, h1, widthSum_append]
      simp [visibleChars, ansiStep, widthSum, hc, hbf]

theorem AnsiBuffer.prw_write (w : Char → Nat) (b : AnsiBuffer) (l : List Char) (h : b.WF) :
    printableRuneWidth w (b.write l).render =
      printableRuneWidth w b.render + widthSum w (visibleChars b.inAnsi l) := by
  induction l generalizing b with
  | nil => simp [AnsiBuffer.write, visibleChars, widthSum]
  | cons c cs ih =>
    have hwf' := b.WF_writeChar c h
    rw [AnsiBuffer.write_cons, ih _ hwf', AnsiBuffer.prw_writeChar w b c h,
      AnsiBuffer.inAnsi_writeChar]
    show _ = printableRuneWidth w b.render + widthSum w (visibleChars b.inAnsi (c :: cs))
    simp only [visibleChars, widthSum_append]
    by_cases hc : c = ANSI_MARKER
    · simp [hc, widthSum]
    · by_cases hb : b.inAnsi
      · simp [hc, hb, widthSum]
      · have hbf : b.inAnsi = false := by simpa using hb
        simp [hc, hbf, widthSum]
        omega

theorem visibleChars_cons (a : Bool) (c : Char) (cs : List Char) :
    visibleChars a (c :: cs) =
      (if c ≠ ANSI_MARKER ∧ a = false then [c] else []) ++
        visibleChars (ansiStep a c) cs := rfl

theorem widthSum_cons (w : Char → Nat) (c : Char) (l : List Char) :
    widthSum w (c :: l) = w c + widthSum w l := by simp [widthSum]

theorem AnsiBuffer.prw_resetAnsi (w : Char → Nat) (b : AnsiBuffer) (h : b.WF) :
    printableRuneWidth w b.resetAnsi.render = printableRuneWidth w b.render := by
  obtain ⟨h1, _, _, _⟩ := h
  rw [AnsiBuffer.render_resetAnsi]
  by_cases hs : b.seqChanged
  · rw [if_pos hs]
    simp only [printableRuneWidth, visibleChars_append, h1, widthSum_append]
    have : visibleChars false ANSI_RESET = [] := by decide
    simp [this, widthSum]
  · rw [if_neg hs]

/-! ## Truncate lemmas -/

theorem widthSum_singleton (w : Char → Nat) (c : Char) : widthSum w [c] = w c := by
  simp [widthSum]

theorem truncStep_eq_ansiStep (a : Bool) (c : Char) : truncStep a c = ansiStep a c := by
  cases a <;> by_cases hc : c = ANSI_MARKER <;> simp [truncStep, ansiStep, hc]

/-- If the remaining characters fit inside the budget, `truncGo` copies
them all into the buffer and does not truncate. -/
theorem truncGo_fits (w : Char → Nat) (avail : Nat) (tail : List Char) :
    ∀ (l : List Char) (b : AnsiBuffer) (inAnsi : Bool) (cw : Nat),
      b.inAnsi = inAnsi →
      cw + widthSum w (visibleChars inAnsi l) ≤ avail →
      truncGo w avail tail b inAnsi cw l = (b.write l, scanAnsi inAnsi l, false) := by
  intro l
  induction l with
  | nil =>
    intro b inAnsi cw _ _
    simp [truncGo, AnsiBuffer.write, scanAnsi_nil]
  | cons c cs ih =>
    intro b inAnsi cw hsync h
    rw [visibleChars_cons, widthSum_append] at h
    have hsync' : (b.writeChar c).inAnsi = ansiStep inAnsi c := by
      rw [AnsiBuffer.inAnsi_writeChar, hsync]
    by_cases hc : c = ANSI_MARKER
    · subst hc
      have hw : truncWidthStep w inAnsi cw ANSI_MARKER = cw := by simp [truncWidthStep]
      have hs : truncStep inAnsi ANSI_MARKER = true := by simp [truncStep]
      have hstep : ansiStep inAnsi ANSI_MARKER = true := by simp [ansiStep]
      have h' : cw + widthSum w (visibleChars true cs) ≤ avail := by
        rw [hstep] at h; simpa [widthSum_nil] using h
      have hne : ¬ avail < cw := by omega
      show truncGo w avail tail b inAnsi cw (ANSI_MARKER :: cs) = _
      simp only [truncGo, hw, hs, if_neg hne]
      rw [ih (b.writeChar ANSI_MARKER) true cw (by rw [hsync', hstep]) (by omega)]
      rw [AnsiBuffer.write_cons, scanAnsi_cons, hstep]
    · by_cases hA : inAnsi = true
      · subst hA
        have hw : truncWidthStep w true cw c = cw := by simp [truncWidthStep, hc]
        have hs : truncStep true c = !(isAnsiTerminator c) := by simp [truncStep, hc]
        have hstep : ansiStep true c = !(isAnsiTerminator c) := by simp [ansiStep, hc]
        have h' : cw + widthSum w (visibleChars (!(isAnsiTerminator c)) cs) ≤ avail := by
          rw [hstep] at h; simpa [widthSum_nil] using h
        have hne : ¬ avail < cw := by omega
        show truncGo w avail tail b true cw (c :: cs) = _
        simp only [truncGo, hw, hs, if_neg hne]
        rw [ih (b.writeChar c) (!(isAnsiTerminator c)) cw (by rw [hsync', hstep])
          (by omega)]
        rw [AnsiBuffer.write_cons, scanAnsi_cons, hstep]
      · have hAf : inAnsi = false := by simpa using hA
        subst hAf
        have hw : truncWidthStep w false cw c = cw + w c := by simp [truncWidthStep, hc]
        have hs : truncStep false c = false := by simp [truncStep, hc]
        have hstep : ansiStep false c = false := by simp [ansiStep, hc]
        have h' : cw + (w c + widthSum w (visibleChars false cs)) ≤ avail := by
          rw [hstep] at h; simpa [hc, widthSum_singleton] using h
        have hne : ¬ avail < cw + w c := by omega
        show truncGo w avail tail b false cw (c :: cs) = _
        simp only [truncGo, hw, hs, if_neg hne]
        rw [ih (b.writeChar c) false (cw + w c) (by rw [hsync', hstep]) (by omega)]
        rw [AnsiBuffer.write_cons, scanAnsi_cons, hstep]

/-- Budget invariant of the truncate scan: the printable width of the
buffer never exceeds the budget plus the tail's printable width. -/
theorem truncGo_prw (w : Char → Nat) (avail : Nat) (tail : List Char) :
    ∀ (l : List Char) (b : AnsiBuffer) (inAnsi : Bool) (cw : Nat),
      b.WF → b.inAnsi = inAnsi → printableRuneWidth w b.render = cw → cw ≤ avail →
      printableRuneWidth w ((truncGo w avail tail b inAnsi cw l).1).render ≤
        avail + printableRuneWidth w tail := by
  intro l
  induction l with
  | nil =>
    intro b inAnsi cw _ _ hprw hle
    simpa [truncGo, hprw] using Nat.le_add_right_of_le hle
  | cons c cs ih =>
    intro b inAnsi cw hWF hsync hprw hle
    have hsync' : (b.writeChar c).inAnsi = ansiStep inAnsi c := by
      rw [AnsiBuffer.inAnsi_writeChar, hsync]
    by_cases hc : c = ANSI_MARKER
    · subst hc
      have hw : truncWidthStep w inAnsi cw ANSI_MARKER = cw := by simp [truncWidthStep]
      have hne : ¬ avail < cw := by omega
      show printableRuneWidth w
        ((truncGo w avail tail b inAnsi cw (ANSI_MARKER :: cs)).1).render ≤ _
      simp only [truncGo, hw, if_neg hne]
      exact ih (b.writeChar ANSI_MARKER) (truncStep inAnsi ANSI_MARKER) cw
        (b.WF_writeChar _ hWF)
        (by rw [hsync', truncStep_eq_ansiStep])
        (by rw [AnsiBuffer.prw_writeChar w b _ hWF, hprw]; simp) hle
    · by_cases hA : inAnsi = true
      · subst hA
        have hw : truncWidthStep w true cw c = cw := by simp [truncWidthStep, hc]
        have hne : ¬ avail < cw := by omega
        show printableRuneWidth w
          ((truncGo w avail tail b true cw (c :: cs)).1).render ≤ _
        simp only [truncGo, hw, if_neg hne]
        exact ih (b.writeChar c) (truncStep true c) cw (b.WF_writeChar _ hWF)
          (by rw [hsync', truncStep_eq_ansiStep])
          (by rw [AnsiBuffer.prw_writeChar w b _ hWF, hprw]; simp [hsync]) hle
      · have hAf : inAnsi = false := by simpa using hA
        subst hAf
        have hw : truncWidthStep w false cw c = cw + w c := by simp [truncWidthStep, hc]
        by_cases htr : avail < cw + w c
        · show printableRuneWidth w
            ((truncGo w avail tail b false cw (c :: cs)).1).render ≤ _
          simp only [truncGo, hw, if_pos htr]
          have hWFt := b.WF_write tail hWF
          have hprwt : printableRuneWidth w ((b.write tail)).render =
              cw + printableRuneWidth w tail := by
            rw [AnsiBuffer.prw_write w b tail hWF, hprw, hsync]; rfl
          by_cases hlast : (b.write tail).getLastSequence ≠ []
          · rw [if_pos hlast, AnsiBuffer.prw_resetAnsi w _ hWFt, hprwt]
            omega
          · rw [if_neg hlast, hprwt]; omega
        · show printableRuneWidth w
            ((truncGo w avail tail b false cw (c :: cs)).1).render ≤ _
          simp only [truncGo, hw, if_neg htr]
          exact ih (b.writeChar c) (truncStep false c) (cw + w c)
            (b.WF_writeChar _ hWF)
            (by rw [hsync', truncStep_eq_ansiStep])
            (by rw [AnsiBuffer.prw_writeChar w b _ hWF, hprw]; simp [hc, hsync])
            (by omega)

theorem AnsiBuffer.write_append (b : AnsiBuffer) (x y : List Char) :
    b.write (x ++ y) = (b.write x).write y := by
  simp [AnsiBuffer.write, List.foldl_append]

/-- Writing non-terminator characters while a sequence is open only
accumulates them into the pending sequence. -/
theorem AnsiBuffer.write_openBody (b : AnsiBuffer) (body : List Char)
    (hb : b.inAnsi = true) (hs : b.seqChanged = true)
    (h : ∀ c ∈ body, isAnsiTerminator c = false) :
    b.write body = { b with ansiSeq := b.ansiSeq ++ body } := by
  induction body generalizing b with
  | nil => simp [AnsiBuffer.write]
  | cons c cs ih =>
    rw [AnsiBuffer.write_cons]
    have hterm : isAnsiTerminator c = false := h c (by simp)
    by_cases hc : c = ANSI_MARKER
    · subst hc
      obtain ⟨o, as, ls, ia, sc⟩ := b
      simp only at hb hs
      subst hb; subst hs
      rw [show AnsiBuffer.writeChar ⟨o, as, ls, true, true⟩ ANSI_MARKER =
        ⟨o, as ++ [ANSI_MARKER], ls, true, true⟩ from by
          rw [AnsiBuffer.writeChar_marker]]
      rw [ih _ rfl rfl (fun d hd => h d (by simp [hd]))]
      simp
    · rw [AnsiBuffer.writeChar_inseq b c hc hb hterm]
      rw [ih _ (by simpa using hb) (by simpa using hs) (fun d hd => h d (by simp [hd]))]
      simp

theorem AnsiPassthrough.writeP_cons (p : AnsiPassthrough) (c : Char) (cs : List Char) :
    p.write (c :: cs) = (p.writeChar c).write cs := rfl

theorem AnsiPassthrough.writeCharP_marker (p : AnsiPassthrough) :
    p.writeChar ANSI_MARKER =
      { p with ansi := true, seqchanged := true, ansiseq := p.ansiseq ++ [ANSI_MARKER] } := by
  simp [AnsiPassthrough.writeChar]

theorem AnsiPassthrough.writeCharP_term (p : AnsiPassthrough) (c : Char)
    (hc : c ≠ ANSI_MARKER) (hp : p.ansi = true) (ht : isAnsiTerminator c = true) :
    p.writeChar c =
      ⟨p.forwarded ++ (p.ansiseq ++ [c]), false, [],
        if ['[', '0', 'm'].isSuffixOf (p.ansiseq ++ [c]) then []
        else if c = 'm' then p.ansiseq ++ [c] else p.lastseq,
        if ['[', '0', 'm'].isSuffixOf (p.ansiseq ++ [c]) then false else p.seqchanged⟩ := by
  simp [AnsiPassthrough.writeChar, hc, hp, ht]

theorem AnsiPassthrough.writeCharP_inseq (p : AnsiPassthrough) (c : Char)
    (hc : c ≠ ANSI_MARKER) (hp : p.ansi = true) (ht : isAnsiTerminator c = false) :
    p.writeChar c = { p with ansiseq := p.ansiseq ++ [c] } := by
  simp [AnsiPassthrough.writeChar, hc, hp, ht]

/-- Passthrough analogue of `AnsiBuffer.write_openBody`. -/
theorem AnsiPassthrough.writeP_openBody (p : AnsiPassthrough) (body : List Char)
    (hb : p.ansi = true) (hs : p.seqchanged = true)
    (h : ∀ c ∈ body, isAnsiTerminator c = false) :
    p.write body = { p with ansiseq := p.ansiseq ++ body } := by
  induction body generalizing p with
  | nil => simp [AnsiPassthrough.write]
  | cons c cs ih =>
    rw [AnsiPassthrough.writeP_cons]
    have hterm : isAnsiTerminator c = false := h c (by simp)
    by_cases hc : c = ANSI_MARKER
    · subst hc
      obtain ⟨f, a, as, ls, sc⟩ := p
      simp only at hb hs
      subst hb; subst hs
      rw [show AnsiPassthrough.writeChar ⟨f, true, as, ls, true⟩ ANSI_MARKER =
        ⟨f, true, as ++ [ANSI_MARKER], ls, true⟩ from by
          rw [AnsiPassthrough.writeCharP_marker]]
      rw [ih _ rfl rfl (fun d hd => h d (by simp [hd]))]
      simp
    · rw [AnsiPassthrough.writeCharP_inseq p c hc hb hterm]
      rw [ih _ (by simpa using hb) (by simpa using hs) (fun d hd => h d (by simp [hd]))]
      simp

/-- A terminator is never the ESC marker. -/
theorem terminator_ne_marker (c : Char) (ht : isAnsiTerminator c = true) :
    c ≠ ANSI_MARKER := by
  intro hc
  subst hc
  simp [isAnsiTerminator, ANSI_MARKER] at ht

/-! ## Claims about the style tracker (C7, C8) -/

/-- C7 (amended): feeding one complete sequence `ESC·body·t` to either
style tracker appends it to the sink; last-style is cleared exactly on the
reset test (full equality to `ESC[0m` for `AnsiBuffer`, an `endsWith "[0m"`
test for `AnsiPassthrough`), replaced on terminator `m` otherwise, and left
unchanged for other terminators; the pending flag, however, is set by the
opening ESC, so it ends `true` for every non-reset sequence, including
non-SGR ones. -/
theorem C7_style_update (b : AnsiBuffer) (p : AnsiPassthrough)
    (body : List Char) (t : Char)
    (hb : b.inAnsi = false) (hbs : b.ansiSeq = [])
    (hp : p.ansi = false) (hps : p.ansiseq = [])
    (hbody : ∀ c ∈ body, isAnsiTerminator c = false)
    (ht : isAnsiTerminator t = true) :
    (b.write (ANSI_MARKER :: (body ++ [t]))).output =
      b.output ++ [ANSI_MARKER :: (body ++ [t])] ∧
    (b.write (ANSI_MARKER :: (body ++ [t]))).inAnsi = false ∧
    (b.write (ANSI_MARKER :: (body ++ [t]))).ansiSeq = [] ∧
    (b.write (ANSI_MARKER :: (body ++ [t]))).lastSeq =
      (if ANSI_MARKER :: (body ++ [t]) = ANSI_RESET then []
       else if t = 'm' then ANSI_MARKER :: (body ++ [t]) else b.lastSeq) ∧
    (b.write (ANSI_MARKER :: (body ++ [t]))).seqChanged =
      (if ANSI_MARKER :: (body ++ [t]) = ANSI_RESET then false else true) ∧
    (p.write (ANSI_MARKER :: (body ++ [t]))).forwarded =
      p.forwarded ++ (ANSI_MARKER :: (body ++ [t])) ∧
    (p.write (ANSI_MARKER :: (body ++ [t]))).lastseq =
      (if ['[', '0', 'm'].isSuffixOf (ANSI_MARKER :: (body ++ [t])) then []
       else if t = 'm' then ANSI_MARKER :: (body ++ [t]) else p.lastseq) ∧
    (p.write (ANSI_MARKER :: (body ++ [t]))).seqchanged =
      (if ['[', '0', 'm'].isSuffixOf (ANSI_MARKER :: (body ++ [t])) then false
       else true) := by
  have htm : t ≠ ANSI_MARKER := terminator_ne_marker t ht
  have hbchain : b.write (ANSI_MARKER :: (body ++ [t])) =
      (((b.writeChar ANSI_MARKER).write body).write [t]) := by
    rw [AnsiBuffer.write_cons, AnsiBuffer.write_append]
  have hb1 : b.writeChar ANSI_MARKER =
      { b with inAnsi := true, seqChanged := true, ansiSeq := [ANSI_MARKER] } := by
    rw [AnsiBuffer.writeChar_marker, hbs]
    simp
  have hb2 : (b.writeChar ANSI_MARKER).write body =
      { b with inAnsi := true, seqChanged := true, ansiSeq := ANSI_MARKER :: body } := by
    rw [hb1, AnsiBuffer.write_openBody _ body rfl rfl hbody]
    simp
  have hb3 : b.write (ANSI_MARKER :: (body ++ [t])) =
      ⟨b.output ++ [ANSI_MARKER :: (body ++ [t])], [],
        if ANSI_MARKER :: (body ++ [t]) = ANSI_RESET then []
        else if t = 'm' then ANSI_MARKER :: (body ++ [t]) else b.lastSeq,
        false,
        if ANSI_MARKER :: (body ++ [t]) = ANSI_RESET then false else true⟩ := by
    rw [hbchain, hb2]
    rw [show ({ b with inAnsi := true, seqChanged := true, ansiSeq := ANSI_MARKER :: body } : AnsiBuffer).write [t] = ({ b with inAnsi := true, seqChanged := true, ansiSeq := ANSI_MARKER :: body } : AnsiBuffer).writeChar t from rfl]
    rw [AnsiBuffer.writeChar_term _ t htm rfl ht]
    simp
  have hpchain : p.write (ANSI_MARKER :: (body ++ [t])) =
      (((p.writeChar ANSI_MARKER).write body).write [t]) := by
    rw [AnsiPassthrough.writeP_cons]
    simp [AnsiPassthrough.write, List.foldl_append]
  have hp1 : p.writeChar ANSI_MARKER =
      { p with ansi := true, seqchanged := true, ansiseq := [ANSI_MARKER] } := by
    rw [AnsiPassthrough.writeCharP_marker, hps]
    simp
  have hp2 : (p.writeChar ANSI_MARKER).write body =
      { p with ansi := true, seqchanged := true, ansiseq := ANSI_MARKER :: body } := by
    rw [hp1, AnsiPassthrough.writeP_openBody _ body rfl rfl hbody]
    simp
  have hp3 : p.write (ANSI_MARKER :: (body ++ [t])) =
      ⟨p.forwarded ++ (ANSI_MARKER :: (body ++ [t])), false, [],
        if ['[', '0', 'm'].isSuffixOf (ANSI_MARKER :: (body ++ [t])) then []
        else if t = 'm' then ANSI_MARKER :: (body ++ [t]) else p.lastseq,
        if ['[', '0', 'm'].isSuffixOf (ANSI_MARKER :: (body ++ [t])) then false
        else true⟩ := by
    rw [hpchain, hp2]
    rw [show ({ p with ansi := true, seqchanged := true, ansiseq := ANSI_MARKER :: body } : AnsiPassthrough).write [t] = ({ p with ansi := true, seqchanged := true, ansiseq := ANSI_MARKER :: body } : AnsiPassthrough).writeChar t from rfl]
    rw [AnsiPassthrough.writeCharP_term _ t htm rfl ht]
    simp
  rw [hb3, hp3]
  refine ⟨rfl, rfl, rfl, rfl, rfl, rfl, rfl, rfl⟩

/-- C7 witness: the cursor-up sequence `ESC[2A` fed to fresh trackers. -/
theorem C7_style_update_witness :
    (AnsiBuffer.init.inAnsi = false ∧ AnsiBuffer.init.ansiSeq = [] ∧
      AnsiPassthrough.init.ansi = false ∧ AnsiPassthrough.init.ansiseq = [] ∧
      (∀ c ∈ (['[', '2'] : List Char), isAnsiTerminator c = false) ∧
      isAnsiTerminator 'A' = true) ∧
    (AnsiBuffer.init.write (ANSI_MARKER :: (['[', '2'] ++ ['A']))).lastSeq =
      (if ANSI_MARKER :: (['[', '2'] ++ ['A']) = ANSI_RESET then []
       else if 'A' = 'm' then ANSI_MARKER :: (['[', '2'] ++ ['A'])
       else AnsiBuffer.init.lastSeq) ∧
    (AnsiBuffer.init.write (ANSI_MARKER :: (['[', '2'] ++ ['A']))).seqChanged =
      (if ANSI_MARKER :: (['[', '2'] ++ ['A']) = ANSI_RESET then false else true) :=
  ⟨⟨rfl, rfl, rfl, rfl, by decide, by decide⟩,
    (C7_style_update AnsiBuffer.init AnsiPassthrough.init ['[', '2'] 'A'
      rfl rfl rfl rfl (by decide) (by decide)).2.2.2.1,
    (C7_style_update AnsiBuffer.init AnsiPassthrough.init ['[', '2'] 'A'
      rfl rfl rfl rfl (by decide) (by decide)).2.2.2.2.1⟩

/-- C7 counterexample: the claim says a non-`m` terminator leaves the
pending flag unchanged, but completing the cursor-move sequence `ESC[2A`
on a fresh buffer flips the flag from `false` to `true` (it is set by the
opening ESC). -/
theorem C7_style_update_cex :
    (AnsiBuffer.init.write ['\x1B', '[', '2', 'A']).seqChanged ≠
      AnsiBuffer.init.seqChanged := by decide

/-- C8 (amended): `resetAnsi` emits the reset sequence iff a style change
is pending, but leaves the pending flag unchanged (the source never
clears it), so two consecutive `resetAnsi` calls with a pending change
emit the reset twice.  Both trackers behave alike. -/
theorem C8_reset_emission (b : AnsiBuffer) (p : AnsiPassthrough) :
    b.resetAnsi.seqChanged = b.seqChanged ∧
    b.resetAnsi.render = (if b.seqChanged then b.render ++ ANSI_RESET else b.render) ∧
    b.resetAnsi.resetAnsi.render =
      (if b.seqChanged then b.render ++ ANSI_RESET ++ ANSI_RESET else b.render) ∧
    p.resetAnsi.seqchanged = p.seqchanged ∧
    p.resetAnsi.forwarded =
      (if p.seqchanged then p.forwarded ++ ANSI_RESET else p.forwarded) ∧
    p.resetAnsi.resetAnsi.forwarded =
      (if p.seqchanged then p.forwarded ++ ANSI_RESET ++ ANSI_RESET else p.forwarded) := by
  by_cases hb : b.seqChanged <;> by_cases hp : p.seqchanged <;>
    simp [AnsiBuffer.resetAnsi, AnsiPassthrough.resetAnsi, AnsiBuffer.render, hb, hp]

/-- C8 counterexample: after recording a style, two consecutive
`resetAnsi` calls emit the reset twice — the output differs from a single
call, so the "at most once" consequence of the claim is false. -/
theorem C8_reset_emission_cex :
    ((AnsiBuffer.init.write ['\x1B', '[', '3', '1', 'm']).resetAnsi.resetAnsi).render ≠
      ((AnsiBuffer.init.write ['\x1B', '[', '3', '1', 'm']).resetAnsi).render := by
  decide

/-! ## Claims about truncate (C1, C4, C10) -/

/-- C1 (amended): when the width is at least the tail's printable width,
the printable width of `truncate(s, width, tail)` is at most `width`; when
the width is strictly smaller, the output is the tail as emitted through
the ANSI buffer — equal to the tail itself whenever the tail has no
dangling unterminated ANSI sequence. -/
theorem C1_truncate_budget (w : Char → Nat) (s : List Char) (width : Nat)
    (tail : List Char) :
    (printableRuneWidth w tail ≤ width →
      printableRuneWidth w (truncate w s width tail) ≤ width) ∧
    (width < printableRuneWidth w tail →
      truncate w s width tail = (AnsiBuffer.init.write tail).render ∧
      (ansiResidue tail = [] → truncate w s width tail = tail)) := by
  constructor
  · intro h1
    have hdeg : ¬ width < printableRuneWidth w tail := by omega
    have hrender : truncate w s width tail =
        ((truncGo w (width - printableRuneWidth w tail) tail
          AnsiBuffer.init false 0 s).1).render := by
      simp [truncate, TruncateWriter.write, TruncateWriter.init, TruncateWriter.render,
        hdeg]
    rw [hrender]
    have := truncGo_prw w (width - printableRuneWidth w tail) tail s
      AnsiBuffer.init false 0 AnsiBuffer.WF_init rfl rfl (Nat.zero_le _)
    omega
  · intro h2
    have heq : truncate w s width tail = (AnsiBuffer.init.write tail).render := by
      simp [truncate, TruncateWriter.write, TruncateWriter.init, TruncateWriter.render,
        h2]
    refine ⟨heq, fun hres => ?_⟩
    have hacc := AnsiBuffer.accum_write AnsiBuffer.init tail AnsiBuffer.WF_init
    have hstate := (AnsiBuffer.state_write AnsiBuffer.init tail AnsiBuffer.WF_init).2
    have hres' : (AnsiBuffer.init.write tail).ansiSeq = [] := by
      rw [hstate]
      exact hres
    rw [hres'] at hacc
    simpa [AnsiBuffer.init, AnsiBuffer.render] using heq.trans (by simpa using hacc)

/-- C1 witness: both budget cases at concrete inputs. -/
theorem C1_truncate_budget_witness :
    (printableRuneWidth unitWidth ['.'] ≤ 2 ∧
      printableRuneWidth unitWidth (truncate unitWidth ['a', 'b', 'c'] 2 ['.']) ≤ 2) ∧
    (0 < printableRuneWidth unitWidth ['x', 'y'] ∧
      truncate unitWidth ['a', 'b'] 0 ['x', 'y'] = ['x', 'y']) :=
  ⟨⟨by decide, (C1_truncate_budget unitWidth ['a', 'b', 'c'] 2 ['.']).1 (by decide)⟩,
    ⟨by decide, ((C1_truncate_budget unitWidth ['a', 'b'] 0 ['x', 'y']).2
      (by decide)).2 (by decide)⟩⟩

/-- C1 counterexample: with a tail whose trailing ANSI sequence is
unterminated, the degenerate case does not return the tail exactly — the
dangling `ESC[` is withheld by the buffer. -/
theorem C1_truncate_budget_cex :
    0 < printableRuneWidth unitWidth ['a', '\x1B', '['] ∧
    truncate unitWidth [] 0 ['a', '\x1B', '['] ≠ ['a', '\x1B', '['] := by decide

/-- C4 (amended): an input that fits the budget passes through untouched,
provided every ANSI sequence in it is terminated; a trailing unterminated
sequence is withheld by the buffer and so would not appear in the output. -/
theorem C4_fit_passthrough (w : Char → Nat) (s : List Char) (width : Nat)
    (tail : List Char)
    (h1 : printableRuneWidth w tail ≤ width)
    (h2 : printableRuneWidth w s ≤ width - printableRuneWidth w tail)
    (h3 : ansiResidue s = []) :
    truncate w s width tail = s := by
  have hdeg : ¬ width < printableRuneWidth w tail := by omega
  have hfits := truncGo_fits w (width - printableRuneWidth w tail) tail s
    AnsiBuffer.init false 0 rfl (by simpa [printableRuneWidth] using h2)
  have hrender : truncate w s width tail =
      ((truncGo w (width - printableRuneWidth w tail) tail
        AnsiBuffer.init false 0 s).1).render := by
    simp [truncate, TruncateWriter.write, TruncateWriter.init, TruncateWriter.render,
      hdeg]
  rw [hrender, hfits]
  have hacc := AnsiBuffer.accum_write AnsiBuffer.init s AnsiBuffer.WF_init
  have hstate := (AnsiBuffer.state_write AnsiBuffer.init s AnsiBuffer.WF_init).2
  have hres' : (AnsiBuffer.init.write s).ansiSeq = [] := by
    rw [hstate]; exact h3
  rw [hres'] at hacc
  simpa [AnsiBuffer.init, AnsiBuffer.render] using hacc

/-- C4 witness: a short styled string within budget is returned verbatim. -/
theorem C4_fit_passthrough_witness :
    (printableRuneWidth unitWidth ['.'] ≤ 5 ∧
      printableRuneWidth unitWidth ['a', 'b'] ≤ 5 - printableRuneWidth unitWidth ['.'] ∧
      ansiResidue ['a', 'b'] = []) ∧
    truncate unitWidth ['a', 'b'] 5 ['.'] = ['a', 'b'] :=
  ⟨⟨by decide, by decide, by decide⟩,
    C4_fit_passthrough unitWidth ['a', 'b'] 5 ['.'] (by decide) (by decide) (by decide)⟩

/-- C4 counterexample: an input consisting of an unterminated ANSI opener
fits the budget (printable width 0) but is not reproduced verbatim — the
output is empty. -/
theorem C4_fit_passthrough_cex :
    printableRuneWidth unitWidth ['\x1B', '['] = 0 ∧
    truncate unitWidth ['\x1B', '['] 5 [] = [] ∧
    ([] : List Char) ≠ ['\x1B', '['] := by decide

/-- C10 (confirmed): once the truncate writer has latched `truncated`,
any further write is a no-op — the state, hence `toString`, is unchanged. -/
theorem C10_truncated_frozen (w : Char → Nat) (t : TruncateWriter) (s : List Char)
    (h : t.truncated = true) :
    t.write w s = t ∧ (t.write w s).render = t.render := by
  have : t.write w s = t := by simp [TruncateWriter.write, h]
  exact ⟨this, by rw [this]⟩

/-- C10 witness: a writer that truncated on its first write ignores a
second write. -/
theorem C10_truncated_frozen_witness :
    ((TruncateWriter.init 1 ['.', '.', '.']).write unitWidth ['x']).truncated = true ∧
    (((TruncateWriter.init 1 ['.', '.', '.']).write unitWidth ['x']).write unitWidth
        ['y']) =
      ((TruncateWriter.init 1 ['.', '.', '.']).write unitWidth ['x']) :=
  ⟨by decide,
    (C10_truncated_frozen unitWidth
      ((TruncateWriter.init 1 ['.', '.', '.']).write unitWidth ['x']) ['y']
      (by decide)).1⟩

/-! ## Hard-wrap lemmas and claims (C5, C6) -/

theorem HardWrap.writeH_cons (w : Char → Nat) (st : HardWrap) (c : Char) (cs : List Char) :
    st.write w (c :: cs) = (st.writeChar w c).write w cs := rfl

/-- At limit 0 with `keepNewlines`, newline `"\n"`, tab handling disabled
and no carriage returns, one character passes through unchanged and the
configuration is untouched. -/
theorem hw_limit0_char (w : Char → Nat) (st : HardWrap) (c : Char)
    (h0 : st.limit = 0) (hnl : st.newline = ['\n']) (hk : st.keepNewlines = true)
    (htw : st.tabWidth = 0) (hc : c ≠ '\r') :
    (st.writeChar w c).render = st.render ++ [c] ∧
    (st.writeChar w c).limit = st.limit ∧
    (st.writeChar w c).newline = st.newline ∧
    (st.writeChar w c).keepNewlines = st.keepNewlines ∧
    (st.writeChar w c).tabWidth = st.tabWidth := by
  by_cases hesc : c = ANSI_MARKER
  · subst hesc
    simp [HardWrap.writeChar, HardWrap.render]
  · by_cases ha : st.ansi
    · simp [HardWrap.writeChar, hesc, ha, HardWrap.render]
    · have haf : st.ansi = false := by simpa using ha
      by_cases hn : c = '\n' ∨ c = '\r' ∨ c ∈ st.newline
      · have hceq : c = '\n' := by
          rcases hn with h | h | h
          · exact h
          · exact absurd h hc
          · rw [hnl] at h; simpa using h
        subst hceq
        simp [HardWrap.writeChar, hesc, haf, hk, hnl, HardWrap.render]
      · have htab : ¬ (c = '\t' ∧ 0 < st.tabWidth) := by
          rintro ⟨_, hpos⟩; rw [htw] at hpos; exact Nat.lt_irrefl 0 hpos
        have hwrap : ¬ (0 < st.limit ∧ st.limit < st.lineLen + w c) := by
          rintro ⟨hpos, _⟩; rw [h0] at hpos; exact Nat.lt_irrefl 0 hpos
        simp [HardWrap.writeChar, hesc, haf, hn, htab, hwrap, HardWrap.render]

/-- C6 (amended): at limit 0 with `keepNewlines` true, the default newline
`"\n"` and tab handling disabled, `hardwrap` is the identity on every
string containing no carriage return (a `'\r'` would be normalized to the
configured newline). -/
theorem C6_hardwrap_limit0 (w : Char → Nat) (ps : Bool) (s : List Char)
    (h : '\r' ∉ s) :
    hardwrap w s 0 ['\n'] true ps 0 = s := by
  suffices hgen : ∀ (l : List Char) (st : HardWrap),
      st.limit = 0 → st.newline = ['\n'] → st.keepNewlines = true →
      st.tabWidth = 0 → (∀ c ∈ l, c ≠ '\r') →
      (st.write w l).render = st.render ++ l by
    have := hgen s (HardWrap.init 0 ['\n'] true ps 0) rfl rfl rfl rfl
      (fun c hcs hcr => h (hcr ▸ hcs))
    simpa [hardwrap, HardWrap.init, HardWrap.render] using this
  intro l
  induction l with
  | nil => intro st _ _ _ _ _; simp [HardWrap.write]
  | cons c cs ih =>
    intro st h0 hnl hk htw hnocr
    obtain ⟨hr, hl, hn, hkk, ht⟩ :=
      hw_limit0_char w st c h0 hnl hk htw (hnocr c (by simp))
    rw [HardWrap.writeH_cons,
      ih (st.writeChar w c) (hl.trans h0) (hn.trans hnl) (hkk.trans hk) (ht.trans htw)
        (fun d hd => hnocr d (by simp [hd])),
      hr]
    simp

/-- C6 witness: identity on a concrete newline-containing string. -/
theorem C6_hardwrap_limit0_witness :
    ('\r' ∉ (['a', '\n', 'b'] : List Char)) ∧
    hardwrap unitWidth ['a', '\n', 'b'] 0 ['\n'] true false 0 = ['a', '\n', 'b'] :=
  ⟨by decide, C6_hardwrap_limit0 unitWidth false ['a', '\n', 'b'] (by decide)⟩

/-- C6 counterexample: a carriage return is replaced by the configured
newline even at limit 0, so `hardwrap(s, 0)` is not the identity on all
strings. -/
theorem C6_hardwrap_limit0_cex :
    hardwrap unitWidth ['\r'] 0 ['\n'] true false 0 = ['\n'] ∧
    (['\n'] : List Char) ≠ ['\r'] := by decide

/-- The tab-expansion loop with `preserveSpace` equals writing the same
number of space characters, one at a time. -/
theorem hwTab_as_spaces (w : Char → Nat) :
    ∀ (n : Nat) (st : HardWrap),
      st.preserveSpace = true → st.ansi = false → ' ' ∉ st.newline → w ' ' = 1 →
      hwTab st n = st.write w (List.replicate n ' ') := by
  intro n
  induction n with
  | zero => intro st _ _ _ _; simp [hwTab, HardWrap.write]
  | succ r ih =>
    intro st hps ha hnl hw1
    have hspace : ¬ (' ' = '\n' ∨ ' ' = '\r' ∨ ' ' ∈ st.newline) := by
      rintro (h | h | h)
      · exact absurd h (by decide)
      · exact absurd h (by decide)
      · exact hnl h
    have hnotab : ¬ ((' ' : Char) = '\t' ∧ 0 < st.tabWidth) := by
      rintro ⟨h, _⟩; exact absurd h (by decide)
    have hrep : List.replicate (r + 1) ' ' = ' ' :: List.replicate r ' ' := rfl
    rw [hrep, HardWrap.writeH_cons]
    by_cases hfull : 0 < st.limit ∧ st.limit ≤ st.lineLen
    · have hwrap : 0 < st.limit ∧ st.limit < st.lineLen + w ' ' := by
        rw [hw1]; omega
      have hchar : st.writeChar w ' ' =
          { st with buf := (st.buf ++ [st.newline]) ++ [[' ']], lineLen := w ' ' } := by
        simp only [HardWrap.writeChar]
        rw [if_neg (by decide), if_neg (by simp [ha]), if_neg hspace, if_neg hnotab,
          if_pos hwrap, if_neg (by simp [hps])]
      have htab : hwTab st (r + 1) =
          hwTab { st with buf := (st.buf ++ [st.newline]) ++ [[' ']], lineLen := 1 } r := by
        simp only [hwTab]
        rw [if_pos hfull, if_pos hps]
      rw [htab, hchar, ih _ (by simp [hps]) (by simp [ha]) (by simpa using hnl) hw1]
      rw [hw1]
    · have hwrap : ¬ (0 < st.limit ∧ st.limit < st.lineLen + w ' ') := by
        rw [hw1]; omega
      have hchar : st.writeChar w ' ' =
          { st with buf := st.buf ++ [[' ']], lineLen := st.lineLen + w ' ' } := by
        simp only [HardWrap.writeChar]
        rw [if_neg (by decide), if_neg (by simp [ha]), if_neg hspace, if_neg hnotab,
          if_neg hwrap]
      have htab : hwTab st (r + 1) =
          hwTab { st with buf := st.buf ++ [[' ']], lineLen := st.lineLen + 1 } r := by
        simp only [hwTab]
        rw [if_neg hfull]
      rw [htab, hchar, ih _ (by simp [hps]) (by simp [ha]) (by simpa using hnl) hw1]
      rw [hw1]

/-- C5 (amended): with `preserveSpace` true, a tab expands to `tabWidth`
space characters each individually subject to the regular wrap check —
writing `'\t'` is state-identical to writing that many spaces (so a tab
can wrap mid-expansion).  With `preserveSpace` false the source instead
discards the rest of the expansion at a wrap (see the counterexample). -/
theorem C5_tab_expansion (w : Char → Nat) (st : HardWrap)
    (h1 : st.preserveSpace = true) (h2 : 0 < st.tabWidth) (h3 : st.ansi = false)
    (h4 : ' ' ∉ st.newline) (h5 : '\t' ∉ st.newline) (h6 : w ' ' = 1) :
    st.writeChar w '\t' = st.write w (List.replicate st.tabWidth ' ') := by
  have htab : st.writeChar w '\t' = hwTab st st.tabWidth := by
    simp only [HardWrap.writeChar]
    rw [if_neg (by decide), if_neg (by simp [h3]),
      if_neg (by
        rintro (h | h | h)
        · exact absurd h (by decide)
        · exact absurd h (by decide)
        · exact h5 h),
      if_pos (by exact ⟨by trivial, h2⟩)]
  rw [htab, hwTab_as_spaces w st.tabWidth st h1 h3 h4 h6]

/-- C5 witness: a tab after `"ab"` at limit 3 with `preserveSpace` equals
four spaces and wraps mid-expansion. -/
theorem C5_tab_expansion_witness :
    (((HardWrap.init 3 ['\n'] true true 4).write unitWidth ['a', 'b']).preserveSpace =
        true ∧
      0 < ((HardWrap.init 3 ['\n'] true true 4).write unitWidth ['a', 'b']).tabWidth ∧
      ((HardWrap.init 3 ['\n'] true true 4).write unitWidth ['a', 'b']).ansi = false ∧
      unitWidth ' ' = 1) ∧
    ((HardWrap.init 3 ['\n'] true true 4).write unitWidth ['a', 'b']).writeChar
        unitWidth '\t' =
      ((HardWrap.init 3 ['\n'] true true 4).write unitWidth ['a', 'b']).write
        unitWidth (List.replicate 4 ' ') ∧
    hardwrap unitWidth ['a', 'b', '\t'] 3 ['\n'] true true 4 =
      ['a', 'b', ' ', '\n', ' ', ' ', ' '] :=
  ⟨⟨by decide, by decide, by decide, by decide⟩,
    C5_tab_expansion unitWidth
      ((HardWrap.init 3 ['\n'] true true 4).write unitWidth ['a', 'b'])
      (by decide) (by decide) (by decide) (by decide) (by decide) (by decide),
    by decide⟩

/-- C5 counterexample: at the default options (`preserveSpace` false) a
tab whose expansion wraps emits only part of its spaces, so it is not
equivalent to `tabWidth` spaces each under the regular wrap check. -/
theorem C5_tab_expansion_cex :
    hardwrapD unitWidth ['a', 'b', 'c', '\t'] 4 = ['a', 'b', 'c', ' ', '\n'] ∧
    hardwrapD unitWidth ['a', 'b', 'c', ' ', ' ', ' ', ' '] 4 =
      ['a', 'b', 'c', ' ', '\n', ' ', ' '] ∧
    (['a', 'b', 'c', ' ', '\n'] : List Char) ≠ ['a', 'b', 'c', ' ', '\n', ' ', ' '] := by
  decide

/-! ## Claim C9: write after close -/

/-- C9 (amended): the closure-based indent writer rejects a write after
`close()` with the error `'Writer is closed'`; `WordWrapWriter` has no
closed state, so its `write` after `close` is accepted (see the
counterexample). -/
theorem C9_write_after_close (st : IndentNW) (s : List Char) (h : st.closed = true) :
    st.write s = Except.error "Writer is closed".toList := by
  simp [IndentNW.write, h]

/-- C9 witness: closing a fresh indent writer makes the next write fail. -/
theorem C9_write_after_close_witness :
    ((IndentNW.init 2).close).closed = true ∧
    ((IndentNW.init 2).close).write ['a'] = Except.error "Writer is closed".toList :=
  ⟨rfl, C9_write_after_close ((IndentNW.init 2).close) ['a'] rfl⟩

/-- C9 counterexample: a `WordWrapWriter` accepts a write after `close()`
— the accumulated output changes instead of an error being raised. -/
theorem C9_write_after_close_cex :
    ((((WordWrap.init 0).write unitWidth ['a', 'b']).close unitWidth).write unitWidth
        ['c', 'd', ' ']).render ≠
      (((WordWrap.init 0).write unitWidth ['a', 'b']).close unitWidth).render := by
  decide

/-! ## Scan-closedness of truncate and indent outputs (towards C2) -/

/-- From the initial state, a closed final scan state has an empty
residue. -/
theorem seqScan_closed_acc :
    ∀ (l : List Char) (a : Bool) (acc : List Char), (a = true ∨ acc = []) →
      ((seqScan (a, acc) l).1).1 = false → ((seqScan (a, acc) l).1).2 = [] := by
  intro l
  induction l with
  | nil =>
    intro a acc hinv hclosed
    rcases hinv with h | h
    · simp [seqScan_nil] at hclosed ⊢
      rw [h] at hclosed
      exact absurd hclosed (by simp)
    · simpa [seqScan_nil] using h
  | cons c cs ih =>
    intro a acc hinv hclosed
    by_cases hc : c = ANSI_MARKER
    · rw [seqScan_cons, if_pos hc] at hclosed ⊢
      exact ih _ _ (Or.inl rfl) hclosed
    · by_cases ha : a = true
      · subst ha
        by_cases ht : isAnsiTerminator c
        · rw [seqScan_cons, if_neg hc, if_pos rfl, if_pos ht] at hclosed ⊢
          exact ih _ _ (Or.inr rfl) hclosed
        · rw [seqScan_cons, if_neg hc, if_pos rfl, if_neg ht] at hclosed ⊢
          exact ih _ _ (Or.inl rfl) hclosed
      · have haf : a = false := by simpa using ha
        subst haf
        rcases hinv with h | h
        · exact absurd h (by simp)
        · subst h
          rw [seqScan_cons, if_neg hc] at hclosed ⊢
          simp only [Bool.false_eq_true, if_false] at hclosed ⊢
          exact ih _ _ (Or.inr rfl) hclosed

/-- A string whose scan from the initial state ends closed has initial
final scan state `(false, [])`. -/
theorem seqScan_closed_state (l : List Char) (h : scanAnsi false l = false) :
    (seqScan ((false : Bool), ([] : List Char)) l).1 = (false, []) := by
  have h1 : ((seqScan ((false : Bool), ([] : List Char)) l).1).1 = false := by
    rw [seqScan_state_fst]; exact h
  have h2 := seqScan_closed_acc l false [] (Or.inr rfl) h1
  exact Prod.ext h1 h2

/-- `truncGo` preserves buffer well-formedness. -/
theorem truncGo_WF (w : Char → Nat) (avail : Nat) (tail : List Char) :
    ∀ (l : List Char) (b : AnsiBuffer) (inAnsi : Bool) (cw : Nat), b.WF →
      ((truncGo w avail tail b inAnsi cw l).1).WF := by
  intro l
  induction l with
  | nil => intro b inAnsi cw h; simpa [truncGo] using h
  | cons c cs ih =>
    intro b inAnsi cw h
    show ((truncGo w avail tail b inAnsi cw (c :: cs)).1).WF
    simp only [truncGo]
    by_cases htr : avail < truncWidthStep w inAnsi cw c
    · rw [if_pos htr]
      have hWFt := b.WF_write tail h
      by_cases hlast : (b.write tail).getLastSequence ≠ []
      · simpa [hlast] using AnsiBuffer.WF_resetAnsi _ hWFt
      · simpa [hlast] using hWFt
    · rw [if_neg htr]
      exact ih _ _ _ (b.WF_writeChar c h)

/-- The truncate writer's output always scans closed. -/
theorem truncate_scan_closed (w : Char → Nat) (s : List Char) (width : Nat)
    (tail : List Char) : scanAnsi false (truncate w s width tail) = false := by
  by_cases hdeg : width < printableRuneWidth w tail
  · have heq : truncate w s width tail = (AnsiBuffer.init.write tail).render := by
      simp [truncate, TruncateWriter.write, TruncateWriter.init, TruncateWriter.render,
        hdeg]
    rw [heq]
    exact (AnsiBuffer.WF_write AnsiBuffer.init tail AnsiBuffer.WF_init).1
  · have heq : truncate w s width tail =
        ((truncGo w (width - printableRuneWidth w tail) tail
          AnsiBuffer.init false 0 s).1).render := by
      simp [truncate, TruncateWriter.write, TruncateWriter.init, TruncateWriter.render,
        hdeg]
    rw [heq]
    exact (truncGo_WF w _ tail s AnsiBuffer.init false 0 AnsiBuffer.WF_init).1

/-! ## AnsiPassthrough well-formedness and the indent writer (towards C2) -/

/-- Well-formedness of a passthrough state: the forwarded sink and the
recorded last sequence scan closed, the pending partial sequence matches
the `ansi` flag. -/
def AnsiPassthrough.WF (p : AnsiPassthrough) : Prop :=
  scanAnsi false p.forwarded = false ∧
  scanAnsi false p.ansiseq = p.ansi ∧
  (p.ansi = false → p.ansiseq = []) ∧
  scanAnsi false p.lastseq = false

theorem AnsiPassthrough.wfInitP : AnsiPassthrough.init.WF :=
  ⟨rfl, rfl, fun _ => rfl, rfl⟩

theorem AnsiPassthrough.wfWriteCharP (p : AnsiPassthrough) (c : Char) (h : p.WF) :
    (p.writeChar c).WF := by
  obtain ⟨h1, h2, h3, h4⟩ := h
  by_cases hc : c = ANSI_MARKER
  · subst hc
    rw [AnsiPassthrough.writeCharP_marker]
    refine ⟨by simpa using h1, ?_, by simp, by simpa using h4⟩
    show scanAnsi false (p.ansiseq ++ [ANSI_MARKER]) = true
    rw [scanAnsi_append, h2]
    cases p.ansi <;> simp [scanAnsi, scanAnsi_cons, ansiStep]
  · by_cases hp : p.ansi
    · by_cases ht : isAnsiTerminator c
      · rw [AnsiPassthrough.writeCharP_term p c hc (by simpa using hp) (by simpa using ht)]
        have hseqscan : scanAnsi false (p.ansiseq ++ [c]) = false := by
          rw [scanAnsi_append, h2]
          simp [hp, scanAnsi, scanAnsi_cons, ansiStep, hc, ht]
        refine ⟨?_, by simp [scanAnsi], by simp, ?_⟩
        · show scanAnsi false (p.forwarded ++ (p.ansiseq ++ [c])) = false
          rw [scanAnsi_append, h1, hseqscan]
        · show scanAnsi false
            (if (['[', '0', 'm'] : List Char).isSuffixOf (p.ansiseq ++ [c]) then []
             else if c = 'm' then p.ansiseq ++ [c] else p.lastseq) = false
          split_ifs with hsuf hm
          · rfl
          · exact hseqscan
          · exact h4
      · rw [AnsiPassthrough.writeCharP_inseq p c hc (by simpa using hp) (by simpa using ht)]
        refine ⟨by simpa using h1, ?_, by simp [hp], by simpa using h4⟩
        show scanAnsi false (p.ansiseq ++ [c]) = p.ansi
        rw [scanAnsi_append, h2]
        simp [hp, scanAnsi, scanAnsi_cons, ansiStep, hc, ht]
    · have hpf : p.ansi = false := by simpa using hp
      have hseq : p.ansiseq = [] := h3 hpf
      rw [show p.writeChar c = { p with forwarded := p.forwarded ++ [c] } from by
        simp [AnsiPassthrough.writeChar, hc, hpf]]
      refine ⟨?_, by simpa [hpf] using h2, fun _ => by simpa using hseq, by simpa using h4⟩
      show scanAnsi false (p.forwarded ++ [c]) = false
      rw [scanAnsi_append, h1]
      simp [scanAnsi, scanAnsi_cons, ansiStep, hc]

theorem AnsiPassthrough.wfWriteP (p : AnsiPassthrough) (l : List Char) (h : p.WF) :
    (p.write l).WF := by
  induction l generalizing p with
  | nil => simpa [AnsiPassthrough.write]
  | cons c cs ih => rw [AnsiPassthrough.writeP_cons]; exact ih _ (p.wfWriteCharP c h)

theorem AnsiPassthrough.wfResetAnsiP (p : AnsiPassthrough) (h : p.WF) :
    p.resetAnsi.WF := by
  obtain ⟨h1, h2, h3, h4⟩ := h
  by_cases hs : p.seqchanged
  · rw [show p.resetAnsi = { p with forwarded := p.forwarded ++ ANSI_RESET } from by
      simp [AnsiPassthrough.resetAnsi, hs]]
    refine ⟨?_, by simpa using h2, fun hh => by simpa using h3 (by simpa using hh),
      by simpa using h4⟩
    show scanAnsi false (p.forwarded ++ ANSI_RESET) = false
    rw [scanAnsi_append, h1]; decide
  · rw [show p.resetAnsi = p from by simp [AnsiPassthrough.resetAnsi, hs]]
    exact ⟨h1, h2, h3, h4⟩

theorem AnsiPassthrough.WF_restoreAnsi (p : AnsiPassthrough) (h : p.WF) :
    p.restoreAnsi.WF := by
  obtain ⟨h1, h2, h3, h4⟩ := h
  refine ⟨?_, by simpa using h2, fun hh => by simpa using h3 (by simpa using hh),
    by simpa using h4⟩
  show scanAnsi false (p.forwarded ++ p.lastseq) = false
  rw [scanAnsi_append, h1, h4]

theorem IndentWriter.writeInd_cons (st : IndentWriter) (c : Char) (cs : List Char) :
    st.write (c :: cs) = (st.writeChar c).write cs := rfl

theorem IndentWriter.wfWriteCharInd (st : IndentWriter) (c : Char) (h : st.pass.WF) :
    (st.writeChar c).pass.WF := by
  have hstep : ∀ q : AnsiPassthrough, q.WF →
      (((q.resetAnsi).write (List.replicate st.indentN ' ')).restoreAnsi).WF :=
    fun q hq =>
      AnsiPassthrough.WF_restoreAnsi _
        (AnsiPassthrough.wfWriteP _ _ (AnsiPassthrough.wfResetAnsiP q hq))
  unfold IndentWriter.writeChar
  by_cases hc : c = ANSI_MARKER
  · simp only [hc, if_true]
    exact AnsiPassthrough.wfWriteCharP _ _ h
  · by_cases ha : st.inAnsi
    · by_cases ht : isAnsiTerminator c <;>
        · simp only [hc, if_neg hc, ha, if_true, ht]
          exact AnsiPassthrough.wfWriteCharP _ _ h
    · have haf : st.inAnsi = false := by simpa using ha
      by_cases hskip : st.skipIndent = false
      · by_cases hnl : c = '\n' <;>
          · simp only [hc, if_neg hc, haf, Bool.false_eq_true, if_false, hskip, if_true,
              hnl]
            exact AnsiPassthrough.wfWriteCharP _ _ (hstep _ h)
      · by_cases hnl : c = '\n' <;>
          · simp only [hc, if_neg hc, haf, Bool.false_eq_true, if_false, hskip, hnl]
            exact AnsiPassthrough.wfWriteCharP _ _ h

theorem IndentWriter.wfWriteInd (st : IndentWriter) (l : List Char) (h : st.pass.WF) :
    (st.write l).pass.WF := by
  induction l generalizing st with
  | nil => simpa [IndentWriter.write]
  | cons c cs ih => rw [IndentWriter.writeInd_cons]; exact ih _ (st.wfWriteCharInd c h)

/-- The indent writer's output always scans closed. -/
theorem indentStr_scan_closed (s : List Char) (n : Nat) :
    scanAnsi false (indentStr s n) = false :=
  ((IndentWriter.init n).wfWriteInd s AnsiPassthrough.wfInitP).1

/-! ## Sequence-scan preservation of hard-wrap (towards C2) -/

/-- Sequence scan from the initial state. -/
def seqScan0 (l : List Char) : (Bool × List Char) × List (List Char) :=
  seqScan (false, []) l

theorem seqScan0_fst_fst (l : List Char) : ((seqScan0 l).1).1 = scanAnsi false l :=
  seqScan_state_fst l false []

theorem seqScan0_congr_append (x y z : List Char) (h : seqScan0 x = seqScan0 y) :
    seqScan0 (x ++ z) = seqScan0 (y ++ z) := by
  unfold seqScan0 at *
  rw [seqScan_append, seqScan_append, h]

theorem seqScan0_plain (x : List Char) (c : Char)
    (hclosed : ((seqScan0 x).1).1 = false) (hc : c ≠ ANSI_MARKER) :
    seqScan0 (x ++ [c]) = seqScan0 x :=
  seqScan_append_plain x c (false, []) hclosed hc

theorem seqScan0_plain_list (x : List Char) :
    ∀ (ins : List Char), ((seqScan0 x).1).1 = false →
      (∀ c ∈ ins, c ≠ ANSI_MARKER) → seqScan0 (x ++ ins) = seqScan0 x := by
  intro ins
  induction ins generalizing x with
  | nil => intro _ _; simp
  | cons c cs ih =>
    intro hclosed hins
    have h1 : seqScan0 (x ++ [c]) = seqScan0 x :=
      seqScan0_plain x c hclosed (hins c (by simp))
    have h2 : ((seqScan0 (x ++ [c])).1).1 = false := by rw [h1]; exact hclosed
    calc seqScan0 (x ++ c :: cs) = seqScan0 ((x ++ [c]) ++ cs) := by simp
    _ = seqScan0 (x ++ [c]) := ih (x ++ [c]) h2 (fun d hd => hins d (by simp [hd]))
    _ = seqScan0 x := h1

/-- Tab expansion only appends spaces and newlines at closed scan points:
the sequence scan of the output, the ansi flag and the newline option are
unchanged. -/
theorem hwTab_scan :
    ∀ (n : Nat) (st : HardWrap), st.newline = ['\n'] →
      ((seqScan0 st.render).1).1 = false →
      seqScan0 ((hwTab st n).render) = seqScan0 st.render ∧
      (hwTab st n).ansi = st.ansi ∧ (hwTab st n).newline = st.newline := by
  intro n
  induction n with
  | zero => intro st _ _; simp [hwTab]
  | succ r ih =>
    intro st hnl hclosed
    by_cases hfull : 0 < st.limit ∧ st.limit ≤ st.lineLen
    · by_cases hps : st.preserveSpace
      · have hstep : hwTab st (r + 1) =
            hwTab { st with buf := (st.buf ++ [st.newline]) ++ [[' ']], lineLen := 1 } r := by
          simp only [hwTab]; rw [if_pos hfull, if_pos hps]
        have hrender : ({ st with buf := (st.buf ++ [st.newline]) ++ [[' ']], lineLen := 1 } : HardWrap).render = (st.render ++ st.newline) ++ [' '] := by
          simp [HardWrap.render]
        have hsc1 : seqScan0 (st.render ++ st.newline) = seqScan0 st.render := by
          rw [hnl]
          exact seqScan0_plain _ _ hclosed (by decide)
        have hsc2 : seqScan0 ((st.render ++ st.newline) ++ [' ']) =
            seqScan0 st.render := by
          rw [seqScan0_plain _ _ (by rw [hsc1]; exact hclosed) (by decide), hsc1]
        obtain ⟨ih1, ih2, ih3⟩ := ih { st with buf := (st.buf ++ [st.newline]) ++ [[' ']], lineLen := 1 } (by simpa using hnl) (by rw [hrender, hsc2]; exact hclosed)
        rw [hstep]
        refine ⟨?_, by simpa using ih2, by simpa using ih3⟩
        rw [ih1, hrender, hsc2]
      · have hstep : hwTab st (r + 1) =
            { st with buf := st.buf ++ [st.newline], lineLen := 0 } := by
          simp only [hwTab]; rw [if_pos hfull, if_neg hps]
        rw [hstep]
        refine ⟨?_, by simp, by simp⟩
        show seqScan0 ((st.buf ++ [st.newline]).flatten) = _
        rw [show (st.buf ++ [st.newline]).flatten = st.render ++ st.newline from by
          simp [HardWrap.render], hnl]
        exact seqScan0_plain _ _ hclosed (by decide)
    · have hstep : hwTab st (r + 1) =
          hwTab { st with buf := st.buf ++ [[' ']], lineLen := st.lineLen + 1 } r := by
        simp only [hwTab]; rw [if_neg hfull]
      have hrender : ({ st with buf := st.buf ++ [[' ']], lineLen := st.lineLen + 1 } : HardWrap).render = st.render ++ [' '] := by
        simp [HardWrap.render]
      have hsc : seqScan0 (st.render ++ [' ']) = seqScan0 st.render :=
        seqScan0_plain _ _ hclosed (by decide)
      obtain ⟨ih1, ih2, ih3⟩ := ih { st with buf := st.buf ++ [[' ']], lineLen := st.lineLen + 1 } (by simpa using hnl)
        (by rw [hrender, hsc]; exact hclosed)
      rw [hstep]
      refine ⟨?_, by simpa using ih2, by simpa using ih3⟩
      rw [ih1, hrender, hsc]

/-- One hard-wrap character preserves the simulation between the output's
sequence scan and the input's. -/
theorem hw_char_scan (w : Char → Nat) (st : HardWrap) (c : Char) (p : List Char)
    (hnl : st.newline = ['\n'])
    (hsc : seqScan0 st.render = seqScan0 p)
    (hansi : st.ansi = scanAnsi false p) :
    (st.writeChar w c).newline = ['\n'] ∧
    seqScan0 ((st.writeChar w c).render) = seqScan0 (p ++ [c]) ∧
    (st.writeChar w c).ansi = scanAnsi false (p ++ [c]) := by
  have hscanstep : scanAnsi false (p ++ [c]) = ansiStep (scanAnsi false p) c := by
    rw [scanAnsi_append]; rfl
  by_cases hesc : c = ANSI_MARKER
  · subst hesc
    have hchar : st.writeChar w ANSI_MARKER =
        { st with buf := st.buf ++ [[ANSI_MARKER]], ansi := true } := by
      simp [HardWrap.writeChar]
    rw [hchar]
    refine ⟨by simpa using hnl, ?_, ?_⟩
    · show seqScan0 ((st.buf ++ [[ANSI_MARKER]]).flatten) = _
      rw [show (st.buf ++ [[ANSI_MARKER]]).flatten = st.render ++ [ANSI_MARKER] from by
        simp [HardWrap.render]]
      exact seqScan0_congr_append _ _ _ hsc
    · rw [hscanstep]
      simp [ansiStep]
  · by_cases ha : st.ansi
    · have hat : st.ansi = true := by simpa using ha
      have hchar : st.writeChar w c =
          { st with buf := st.buf ++ [[c]], ansi := !(isAnsiTerminator c) } := by
        simp [HardWrap.writeChar, hesc, hat]
      rw [hchar]
      refine ⟨by simpa using hnl, ?_, ?_⟩
      · show seqScan0 ((st.buf ++ [[c]]).flatten) = _
        rw [show (st.buf ++ [[c]]).flatten = st.render ++ [c] from by
          simp [HardWrap.render]]
        exact seqScan0_congr_append _ _ _ hsc
      · rw [hscanstep, ← hansi, hat]
        simp [ansiStep, hesc]
    · have haf : st.ansi = false := by simpa using ha
      have hclosedp : ((seqScan0 p).1).1 = false := by
        rw [seqScan0_fst_fst, ← hansi]; exact haf
      have hclosedr : ((seqScan0 st.render).1).1 = false := by rw [hsc]; exact hclosedp
      have hplain_in : seqScan0 (p ++ [c]) = seqScan0 p :=
        seqScan0_plain _ _ hclosedp hesc
      have hstep_in : scanAnsi false (p ++ [c]) = false := by
        rw [hscanstep, ← hansi, haf]
        simp [ansiStep, hesc]
      by_cases hn : c = '\n' ∨ c = '\r' ∨ c ∈ st.newline
      · by_cases hk : st.keepNewlines
        · have hchar : st.writeChar w c =
              { st with buf := st.buf ++ [st.newline], lineLen := 0 } := by
            simp only [HardWrap.writeChar]
            rw [if_neg hesc, if_neg (by simp [haf]), if_pos hn, if_pos hk]
          rw [hchar]
          refine ⟨by simpa using hnl, ?_, by simpa [haf] using hstep_in.symm⟩
          show seqScan0 ((st.buf ++ [st.newline]).flatten) = _
          rw [show (st.buf ++ [st.newline]).flatten = st.render ++ st.newline from by
            simp [HardWrap.render], hnl, hplain_in,
            seqScan0_plain _ _ hclosedr (by decide)]
          exact hsc
        · have hchar : st.writeChar w c = st := by
            simp only [HardWrap.writeChar]
            rw [if_neg hesc, if_neg (by simp [haf]), if_pos hn, if_neg hk]
          rw [hchar, hplain_in]
          exact ⟨hnl, hsc, by rw [← hstep_in] at haf; exact haf⟩
      · by_cases htab : c = '\t' ∧ 0 < st.tabWidth
        · have hchar : st.writeChar w c = hwTab st st.tabWidth := by
            simp only [HardWrap.writeChar]
            rw [if_neg hesc, if_neg (by simp [haf]), if_neg hn, if_pos htab]
          obtain ⟨ht1, ht2, ht3⟩ := hwTab_scan st.tabWidth st hnl hclosedr
          rw [hchar, hplain_in]
          exact ⟨ht3.trans hnl, ht1.trans hsc,
            by rw [ht2, haf, ← hansi] at *; rw [hstep_in, haf]⟩
        · by_cases hwrap : 0 < st.limit ∧ st.limit < st.lineLen + w c
          · by_cases hdrop : st.preserveSpace = false ∧ c = ' '
            · have hchar : st.writeChar w c =
                  { st with buf := st.buf ++ [st.newline], lineLen := 0 } := by
                simp only [HardWrap.writeChar]
                rw [if_neg hesc, if_neg (by simp [haf]), if_neg hn, if_neg htab,
                  if_pos hwrap, if_pos hdrop]
              rw [hchar]
              refine ⟨by simpa using hnl, ?_, by simpa [haf] using hstep_in.symm⟩
              show seqScan0 ((st.buf ++ [st.newline]).flatten) = _
              rw [show (st.buf ++ [st.newline]).flatten = st.render ++ st.newline from by
                simp [HardWrap.render], hnl, hplain_in,
                seqScan0_plain _ _ hclosedr (by decide)]
              exact hsc
            · have hchar : st.writeChar w c =
                  { st with buf := (st.buf ++ [st.newline]) ++ [[c]], lineLen := w c } := by
                simp only [HardWrap.writeChar]
                rw [if_neg hesc, if_neg (by simp [haf]), if_neg hn, if_neg htab,
                  if_pos hwrap, if_neg hdrop]
              rw [hchar]
              refine ⟨by simpa using hnl, ?_, by simpa [haf] using hstep_in.symm⟩
              show seqScan0 (((st.buf ++ [st.newline]) ++ [[c]]).flatten) = _
              rw [show ((st.buf ++ [st.newline]) ++ [[c]]).flatten =
                (st.render ++ st.newline) ++ [c] from by simp [HardWrap.render]]
              refine seqScan0_congr_append _ _ _ ?_
              rw [hnl, seqScan0_plain _ _ hclosedr (by decide)]
              exact hsc
          · have hchar : st.writeChar w c =
                { st with buf := st.buf ++ [[c]], lineLen := st.lineLen + w c } := by
              simp only [HardWrap.writeChar]
              rw [if_neg hesc, if_neg (by simp [haf]), if_neg hn, if_neg htab,
                if_neg hwrap]
            rw [hchar]
            refine ⟨by simpa using hnl, ?_, by simpa [haf] using hstep_in.symm⟩
            show seqScan0 ((st.buf ++ [[c]]).flatten) = _
            rw [show (st.buf ++ [[c]]).flatten = st.render ++ [c] from by
              simp [HardWrap.render]]
            exact seqScan0_congr_append _ _ _ hsc

/-- Hard-wrap preserves the sequence scan of its input. -/
theorem hw_write_scan (w : Char → Nat) :
    ∀ (l : List Char) (st : HardWrap) (p : List Char),
      st.newline = ['\n'] → seqScan0 st.render = seqScan0 p →
      st.ansi = scanAnsi false p →
      seqScan0 ((st.write w l).render) = seqScan0 (p ++ l) := by
  intro l
  induction l with
  | nil => intro st p _ hsc _; simpa [HardWrap.write] using hsc
  | cons c cs ih =>
    intro st p hnl hsc hansi
    obtain ⟨h1, h2, h3⟩ := hw_char_scan w st c p hnl hsc hansi
    rw [HardWrap.writeH_cons,
      show p ++ c :: cs = (p ++ [c]) ++ cs from by simp]
    exact ih (st.writeChar w c) (p ++ [c]) h1 h2 h3

/-! ## Word-wrap lemmas (towards C2 and C3) -/

/-- The pending word as a zero-or-one element list. -/
def pend (l : List Char) : List (List Char) := if l = [] then [] else [l]

/-- The word chunks of a buffer, in order. -/
def wordChunks : List WChunk → List (List Char)
  | [] => []
  | WChunk.word l :: r => l :: wordChunks r
  | _ :: r => wordChunks r

theorem wordChunks_append (x y : List WChunk) :
    wordChunks (x ++ y) = wordChunks x ++ wordChunks y := by
  induction x with
  | nil => simp [wordChunks]
  | cons c cs ih =>
    cases c <;> simp [wordChunks, ih]

/-- The maximal non-breakpoint runs of the input, by the same
classification the word-wrap writer uses (ANSI sequences glued into the
current run, newline and breakpoint characters ending it). -/
def wordRuns (bps nls : List Char) : Bool → List Char → List Char → List (List Char)
  | _, cur, [] => if cur = [] then [] else [cur]
  | ansi, cur, c :: cs =>
    if c = ANSI_MARKER then wordRuns bps nls true (cur ++ [c]) cs
    else if ansi then wordRuns bps nls (!(isAnsiTerminator c)) (cur ++ [c]) cs
    else if c ∈ nls then
      (if cur = [] then [] else [cur]) ++ wordRuns bps nls false [] cs
    else if c ∈ bps then
      (if cur = [] then [] else [cur]) ++ wordRuns bps nls false [] cs
    else wordRuns bps nls false (cur ++ [c]) cs

theorem WordWrap.writeW_cons (w : Char → Nat) (st : WordWrap) (c : Char)
    (cs : List Char) : st.write w (c :: cs) = (st.writeChar w c).write w cs := rfl

theorem WordWrap.flushWordOnly_id (w : Char → Nat) (st : WordWrap)
    (hw : st.word = []) : st.flushWordOnly w = st := by
  unfold WordWrap.flushWordOnly
  rw [if_pos hw]

/-- Shape of `flushWordOnly` when a word is pending: the word is pushed
as one chunk, preceded by at most one inserted newline or space chunk;
the word and space buffers are cleared; configuration and the ansi flag
are untouched. -/
theorem WordWrap.flushWordOnly_spec (w : Char → Nat) (st : WordWrap)
    (hw : st.word ≠ []) :
    ∃ mid : List WChunk,
      (st.flushWordOnly w).buf = st.buf ++ mid ++ [WChunk.word st.word] ∧
      (mid = [] ∨ mid = [WChunk.nl] ∨ mid = [WChunk.sp st.space]) ∧
      (st.flushWordOnly w).word = [] ∧
      (st.flushWordOnly w).wordLen = 0 ∧
      (st.flushWordOnly w).space = [] ∧
      (st.flushWordOnly w).ansi = st.ansi ∧
      (st.flushWordOnly w).limit = st.limit ∧
      (st.flushWordOnly w).breakpoints = st.breakpoints ∧
      (st.flushWordOnly w).newline = st.newline ∧
      (st.flushWordOnly w).keepNewlines = st.keepNewlines := by
  unfold WordWrap.flushWordOnly
  rw [if_neg hw]
  dsimp only
  split_ifs with h1 h2 h3 h4 h5 h6 h7
  · exact ⟨[WChunk.nl], by simp⟩
  · exact ⟨[WChunk.sp st.space], by simp⟩
  · exact ⟨[], by simp⟩
  · exact ⟨[], by simp⟩
  · exact ⟨[WChunk.sp st.space], by simp⟩
  · exact ⟨[], by simp⟩
  · exact ⟨[WChunk.sp st.space], by simp⟩
  · exact ⟨[], by simp⟩

/-- Shape of `flushWordAndSpace`: the pending word (if any) is pushed as
one chunk among inserted newline/space chunks; word and space buffers are
cleared; configuration and the ansi flag are untouched. -/
theorem WordWrap.flushWordAndSpace_spec (w : Char → Nat) (st : WordWrap) :
    ∃ mid : List WChunk,
      (st.flushWordAndSpace w).buf = st.buf ++ mid ∧
      wordChunks mid = pend st.word ∧
      (∀ ch ∈ mid, ch = WChunk.nl ∨ (∃ sp, ch = WChunk.sp sp ∧
        (sp = st.space ∨ sp = (st.flushWordOnly w).space)) ∨ ch = WChunk.word st.word) ∧
      (st.flushWordAndSpace w).word = [] ∧
      (st.flushWordAndSpace w).space = [] ∧
      (st.flushWordAndSpace w).ansi = st.ansi ∧
      (st.flushWordAndSpace w).limit = st.limit ∧
      (st.flushWordAndSpace w).breakpoints = st.breakpoints ∧
      (st.flushWordAndSpace w).newline = st.newline ∧
      (st.flushWordAndSpace w).keepNewlines = st.keepNewlines := by
  unfold WordWrap.flushWordAndSpace
  dsimp only
  by_cases hw : st.word = []
  · rw [if_pos hw]
    by_cases hsp : st.space = []
    · rw [if_pos hsp]
      exact ⟨[], by simp [wordChunks, pend, hw, hsp]⟩
    · rw [if_neg hsp]
      split_ifs with hfit
      · refine ⟨[WChunk.sp st.space], ?_⟩
        simp [wordChunks, pend, hw]
      · exact ⟨[], by simp [wordChunks, pend, hw]⟩
  · rw [if_neg hw]
    obtain ⟨mid, hbuf, hmid, hword, _, hsp0, hansi, hlim, hbp, hnl, hkeep⟩ :=
      st.flushWordOnly_spec w hw
    rw [if_pos hsp0]
    refine ⟨mid ++ [WChunk.word st.word], ?_, ?_, ?_, hword, hsp0, hansi, hlim, hbp,
      hnl, hkeep⟩
    · rw [hbuf]; simp
    · rw [wordChunks_append]
      rcases hmid with h | h | h <;>
        simp [h, wordChunks, pend, hw]
    · intro ch hch
      rcases List.mem_append.mp hch with h | h
      · rcases hmid with hm | hm | hm <;> subst hm <;> simp at h
        · simp [h]
        · subst h; right; left; exact ⟨st.space, rfl, Or.inl rfl⟩
      · simp at h
        simp [h]

theorem WordWrap.writeCharW_marker (w : Char → Nat) (st : WordWrap) :
    st.writeChar w ANSI_MARKER =
      { st with word := st.word ++ [ANSI_MARKER], ansi := true } := by
  simp [WordWrap.writeChar]

theorem WordWrap.writeCharW_inseq (w : Char → Nat) (st : WordWrap) (c : Char)
    (hc : c ≠ ANSI_MARKER) (ha : st.ansi = true) :
    st.writeChar w c = { st with word := st.word ++ [c], ansi := !(isAnsiTerminator c) } := by
  simp [WordWrap.writeChar, hc, ha]

theorem WordWrap.writeChar_newline_keep (w : Char → Nat) (st : WordWrap) (c : Char)
    (hc : c ≠ ANSI_MARKER) (ha : st.ansi = false) (hn : c ∈ st.newline)
    (hk : st.keepNewlines = true) :
    st.writeChar w c =
      { st.flushWordAndSpace w with
        buf := (st.flushWordAndSpace w).buf ++ [WChunk.nl]
        lineLen := 0 } := by
  simp [WordWrap.writeChar, hc, ha, hn, hk]

theorem WordWrap.writeChar_space (w : Char → Nat) (st : WordWrap) (c : Char)
    (hc : c ≠ ANSI_MARKER) (ha : st.ansi = false) (hn : c ∉ st.newline)
    (hb : c ∈ st.breakpoints) (hsp : c = ' ' ∨ c = '\t') :
    st.writeChar w c =
      { st.flushWordOnly w with space := (st.flushWordOnly w).space ++ [c] } := by
  simp [WordWrap.writeChar, hc, ha, hn, hb, hsp]

theorem WordWrap.writeCharW_plain (w : Char → Nat) (st : WordWrap) (c : Char)
    (hc : c ≠ ANSI_MARKER) (ha : st.ansi = false) (hn : c ∉ st.newline)
    (hb : c ∉ st.breakpoints) :
    st.writeChar w c =
      { st with word := st.word ++ [c], wordLen := st.wordLen + w c } := by
  simp [WordWrap.writeChar, hc, ha, hn, hb]

/-- Word-chunk effect of `flushWordOnly`, covering the empty-word case. -/
theorem WordWrap.flushWordOnly_words (w : Char → Nat) (st : WordWrap) :
    wordChunks (st.flushWordOnly w).buf = wordChunks st.buf ++ pend st.word ∧
    (st.flushWordOnly w).word = [] ∧
    (st.flushWordOnly w).space = [] ∨
      st.word = [] ∧ st.flushWordOnly w = st := by
  by_cases hw : st.word = []
  · exact Or.inr ⟨hw, st.flushWordOnly_id w hw⟩
  · obtain ⟨mid, hbuf, hmid, hword, _, hsp, _, _, _, _, _⟩ := st.flushWordOnly_spec w hw
    refine Or.inl ⟨?_, hword, hsp⟩
    rw [hbuf, wordChunks_append, wordChunks_append]
    rcases hmid with h | h | h <;>
      simp [h, wordChunks, pend, hw]

/-- Word-chunk effect of `flushWordOnly`, uniform statement. -/
theorem WordWrap.flushWordOnly_wordsEq (w : Char → Nat) (st : WordWrap) :
    wordChunks (st.flushWordOnly w).buf = wordChunks st.buf ++ pend st.word ∧
    (st.flushWordOnly w).word = [] ∧
    (st.flushWordOnly w).ansi = st.ansi ∧
    (st.flushWordOnly w).limit = st.limit ∧
    (st.flushWordOnly w).breakpoints = st.breakpoints ∧
    (st.flushWordOnly w).newline = st.newline ∧
    (st.flushWordOnly w).keepNewlines = st.keepNewlines := by
  by_cases hw : st.word = []
  · rw [st.flushWordOnly_id w hw]
    simp [pend, hw]
  · obtain ⟨mid, hbuf, hmid, hword, _, _, hansi, hlim, hbp, hnl, hk⟩ :=
      st.flushWordOnly_spec w hw
    refine ⟨?_, hword, hansi, hlim, hbp, hnl, hk⟩
    rw [hbuf, wordChunks_append, wordChunks_append]
    rcases hmid with h | h | h <;>
      simp [h, wordChunks, pend, hw]

/-- Word-chunk effect of `flushWordAndSpace`. -/
theorem WordWrap.flushWordAndSpace_wordsEq (w : Char → Nat) (st : WordWrap) :
    wordChunks (st.flushWordAndSpace w).buf = wordChunks st.buf ++ pend st.word ∧
    (st.flushWordAndSpace w).word = [] ∧
    (st.flushWordAndSpace w).ansi = st.ansi ∧
    (st.flushWordAndSpace w).limit = st.limit ∧
    (st.flushWordAndSpace w).breakpoints = st.breakpoints ∧
    (st.flushWordAndSpace w).newline = st.newline ∧
    (st.flushWordAndSpace w).keepNewlines = st.keepNewlines := by
  obtain ⟨mid, hbuf, hchunks, _, hword, _, hansi, hlim, hbp, hnl, hk⟩ :=
    st.flushWordAndSpace_spec w
  refine ⟨?_, hword, hansi, hlim, hbp, hnl, hk⟩
  rw [hbuf, wordChunks_append, hchunks]

/-- Breakpoint branch of `writeChar` (non-space breakpoint): the pending
word is flushed and ESC-free chunks are inserted; no other word chunk
appears. -/
theorem WordWrap.writeChar_brk_spec (w : Char → Nat) (st : WordWrap) (c : Char)
    (hc : c ≠ ANSI_MARKER) (ha : st.ansi = false) (hn : c ∉ st.newline)
    (hb : c ∈ st.breakpoints) (hnsp : ¬(c = ' ' ∨ c = '\t')) :
    ∃ mid : List WChunk,
      (st.writeChar w c).buf = st.buf ++ mid ∧
      wordChunks mid = pend st.word ∧
      (st.writeChar w c).word = [] ∧
      (st.writeChar w c).space = [] ∧
      (st.writeChar w c).ansi = st.ansi ∧
      (st.writeChar w c).limit = st.limit ∧
      (st.writeChar w c).breakpoints = st.breakpoints ∧
      (st.writeChar w c).newline = st.newline ∧
      (st.writeChar w c).keepNewlines = st.keepNewlines ∧
      ∃ r1 r2 : List Char, (st.writeChar w c).render =
        st.render ++ r1 ++ (if st.word = [] then [] else st.word) ++ r2 ∧
        (∀ x ∈ r1, x = '\n' ∨ x ∈ st.space ∨ x = c) ∧
        (∀ x ∈ r2, x = '\n' ∨ x ∈ st.space ∨ x = c) := by
  have hchar : st.writeChar w c =
      (let st1 := st.flushWordOnly w
       let st2 :=
        if st1.space = [] then st1
        else
          if st1.limit = 0 ∨ st1.lineLen + widthSum w st1.space ≤ st1.limit then
            { st1 with buf := st1.buf ++ [(.sp st1.space)], lineLen := st1.lineLen + widthSum w st1.space, space := [] }
          else { st1 with space := [] }
       if st2.limit = 0 ∨ st2.lineLen + w c ≤ st2.limit then
        { st2 with buf := st2.buf ++ [(.brk c)], lineLen := st2.lineLen + w c }
       else st2) := by
    simp [WordWrap.writeChar, hc, ha, hn, hb, hnsp]
  by_cases hw : st.word = []
  · have hflush : st.flushWordOnly w = st := st.flushWordOnly_id w hw
    rw [hchar]
    dsimp only
    rw [hflush]
    by_cases hsp : st.space = []
    · rw [if_pos hsp]
      split_ifs with hfit
      · refine ⟨[WChunk.brk c], by simp, by simp [wordChunks, pend, hw], by simp [hw],
          by simp [hsp], by simp, by simp, by simp, by simp, by simp,
          [c], [], ?_, by simp, by simp⟩
        show ((st.buf ++ [WChunk.brk c]).map WChunk.render).flatten = _
        simp [WordWrap.render, WChunk.render, hw]
      · exact ⟨[], by simp, by simp [wordChunks, pend, hw], by simp [hw],
          by simp [hsp], by simp, by simp, by simp, by simp, by simp,
          [], [], by simp [WordWrap.render, hw], by simp, by simp⟩
    · rw [if_neg hsp]
      split_ifs with hfit1 hfit2 hfit3
      · refine ⟨[WChunk.sp st.space, WChunk.brk c], by simp, by simp [wordChunks, pend, hw],
          by simp [hw], by simp, by simp, by simp, by simp, by simp, by simp,
          st.space ++ [c], [], ?_, by intro x hx; simp at hx; tauto, by simp⟩
        show (((st.buf ++ [WChunk.sp st.space]) ++ [WChunk.brk c]).map WChunk.render).flatten = _
        simp [WordWrap.render, WChunk.render, hw]
      · refine ⟨[WChunk.sp st.space], by simp, by simp [wordChunks, pend, hw],
          by simp [hw], by simp, by simp, by simp, by simp, by simp, by simp,
          st.space, [], ?_, by intro x hx; tauto, by simp⟩
        show ((st.buf ++ [WChunk.sp st.space]).map WChunk.render).flatten = _
        simp [WordWrap.render, WChunk.render, hw]
      · refine ⟨[WChunk.brk c], by simp, by simp [wordChunks, pend, hw], by simp [hw],
          by simp, by simp, by simp, by simp, by simp, by simp,
          [c], [], ?_, by simp, by simp⟩
        show ((st.buf ++ [WChunk.brk c]).map WChunk.render).flatten = _
        simp [WordWrap.render, WChunk.render, hw]
      · exact ⟨[], by simp, by simp [wordChunks, pend, hw], by simp [hw], by simp,
          by simp, by simp, by simp, by simp, by simp,
          [], [], by simp [WordWrap.render, hw], by simp, by simp⟩
  · obtain ⟨mid0, hbuf, hmid, hword, _, hsp0, hansi, hlim, hbp, hnl0, hk⟩ :=
      st.flushWordOnly_spec w hw
    have hrins : ∀ x ∈ (mid0.map WChunk.render).flatten,
        x = '\n' ∨ x ∈ st.space ∨ x = c := by
      rcases hmid with h | h | h <;> subst h <;> intro x hx <;>
        simp [WChunk.render] at hx
      · simp [hx]
      · tauto
    rw [hchar]
    dsimp only
    rw [if_pos hsp0]
    split_ifs with hfit
    · refine ⟨mid0 ++ [WChunk.word st.word] ++ [WChunk.brk c], ?_, ?_,
        by simp [hword], by simp [hsp0], by simp [hansi], by simp [hlim],
        by simp [hbp], by simp [hnl0], by simp [hk],
        (mid0.map WChunk.render).flatten, [c], ?_, hrins, by simp⟩
      · rw [hbuf]; simp
      · rw [wordChunks_append, wordChunks_append]
        rcases hmid with h | h | h <;> simp [h, wordChunks, pend, hw]
      · show (((st.flushWordOnly w).buf ++ [WChunk.brk c]).map WChunk.render).flatten = _
        rw [hbuf]
        simp [WordWrap.render, WChunk.render, hw]
    · refine ⟨mid0 ++ [WChunk.word st.word], ?_, ?_,
        by simp [hword], by simp [hsp0], by simp [hansi], by simp [hlim],
        by simp [hbp], by simp [hnl0], by simp [hk],
        (mid0.map WChunk.render).flatten, [], ?_, hrins, by simp⟩
      · rw [hbuf]; simp
      · rw [wordChunks_append]
        rcases hmid with h | h | h <;> simp [h, wordChunks, pend, hw]
      · show ((st.flushWordOnly w).buf.map WChunk.render).flatten = _
        rw [hbuf]
        simp [WordWrap.render, WChunk.render, hw]

theorem wordRuns_cons (bps nls : List Char) (ansi : Bool) (cur : List Char) (c : Char)
    (cs : List Char) :
    wordRuns bps nls ansi cur (c :: cs) =
      if c = ANSI_MARKER then wordRuns bps nls true (cur ++ [c]) cs
      else if ansi then wordRuns bps nls (!(isAnsiTerminator c)) (cur ++ [c]) cs
      else if c ∈ nls then
        (if cur = [] then [] else [cur]) ++ wordRuns bps nls false [] cs
      else if c ∈ bps then
        (if cur = [] then [] else [cur]) ++ wordRuns bps nls false [] cs
      else wordRuns bps nls false (cur ++ [c]) cs := rfl

/-- C3 part 1, write-level: the word chunks pushed so far together with
the pending word are exactly the word runs of the consumed input. -/
theorem ww_write_words (w : Char → Nat) :
    ∀ (l : List Char) (st : WordWrap),
      st.breakpoints = [' ', '-'] → st.newline = ['\n'] → st.keepNewlines = true →
      wordChunks ((st.write w l).buf) ++ pend (st.write w l).word =
        wordChunks st.buf ++ wordRuns [' ', '-'] ['\n'] st.ansi st.word l := by
  intro l
  induction l with
  | nil => intro st _ _ _; simp [WordWrap.write, wordRuns, pend]
  | cons c cs ih =>
    intro st hbp hnl hk
    rw [WordWrap.writeW_cons, wordRuns_cons]
    by_cases hc : c = ANSI_MARKER
    · subst hc
      rw [WordWrap.writeCharW_marker, if_pos rfl]
      exact ih _ (by simpa using hbp) (by simpa using hnl) (by simpa using hk)
    · rw [if_neg hc]
      by_cases ha : st.ansi = true
      · rw [WordWrap.writeCharW_inseq w st c hc ha, if_pos ha]
        exact ih _ (by simpa using hbp) (by simpa using hnl) (by simpa using hk)
      · have haf : st.ansi = false := by simpa using ha
        rw [if_neg (by simp [haf])]
        by_cases hn : c ∈ st.newline
        · have hnls : c ∈ (['\n'] : List Char) := hnl ▸ hn
          rw [if_pos hnls, WordWrap.writeChar_newline_keep w st c hc haf hn hk]
          obtain ⟨hchunks, hword, hansi, hlim, hbpp, hnlp, hkp⟩ :=
            st.flushWordAndSpace_wordsEq w
          rw [ih _ (by simpa using hbpp.trans hbp) (by simpa using hnlp.trans hnl)
            (by simpa using hkp.trans hk)]
          have : wordChunks ((st.flushWordAndSpace w).buf ++ [WChunk.nl]) =
              wordChunks st.buf ++ pend st.word := by
            rw [wordChunks_append, hchunks]; simp [wordChunks]
          simp only [this, hword, hansi, haf, pend]
          simp [pend]
        · have hnls : c ∉ (['\n'] : List Char) := hnl ▸ hn
          rw [if_neg hnls]
          by_cases hbrk : c ∈ st.breakpoints
          · have hbps : c ∈ ([' ', '-'] : List Char) := hbp ▸ hbrk
            rw [if_pos hbps]
            by_cases hsp : c = ' ' ∨ c = '\t'
            · rw [WordWrap.writeChar_space w st c hc haf hn hbrk hsp]
              obtain ⟨hchunks, hword, hansi, hlim, hbpp, hnlp, hkp⟩ :=
                st.flushWordOnly_wordsEq w
              rw [ih _ (by simpa using hbpp.trans hbp) (by simpa using hnlp.trans hnl)
                (by simpa using hkp.trans hk)]
              simp only [hchunks, hword, hansi, haf, pend]
              simp [pend]
            · obtain ⟨mid, hbuf, hchunks, hword, _, hansi, hlim, hbpp, hnlp, hkp, _⟩ :=
                st.writeChar_brk_spec w c hc haf hn hbrk hsp
              rw [ih _ (hbpp.trans hbp) (hnlp.trans hnl) (hkp.trans hk)]
              rw [hbuf, wordChunks_append, hchunks, hword, hansi, haf]
              simp [pend]
          · have hbps : c ∉ ([' ', '-'] : List Char) := hbp ▸ hbrk
            rw [if_neg hbps, WordWrap.writeCharW_plain w st c hc haf hn hbrk]
            have h := ih { st with word := st.word ++ [c], wordLen := st.wordLen + w c }
              (by simpa using hbp) (by simpa using hnl) (by simpa using hk)
            simpa [haf] using h

theorem seqScan0_insert (x ins y : List Char) (hclosed : ((seqScan0 x).1).1 = false)
    (hins : ∀ c ∈ ins, c ≠ ANSI_MARKER) :
    seqScan0 (x ++ ins ++ y) = seqScan0 (x ++ y) :=
  seqScan0_congr_append (x ++ ins) x y (seqScan0_plain_list x ins hclosed hins)

/-- Render shape of `flushWordOnly` with a pending word: the word is
appended after at most one inserted newline or space run. -/
theorem WordWrap.flushWordOnly_render (w : Char → Nat) (st : WordWrap)
    (hw : st.word ≠ []) :
    ∃ rins, (st.flushWordOnly w).render = st.render ++ rins ++ st.word ∧
      (rins = [] ∨ rins = ['\n'] ∨ rins = st.space) := by
  obtain ⟨mid, hbuf, hmid, _, _, _, _, _, _, _, _⟩ := st.flushWordOnly_spec w hw
  refine ⟨(mid.map WChunk.render).flatten, ?_, ?_⟩
  · show ((st.flushWordOnly w).buf.map WChunk.render).flatten = _
    rw [hbuf]
    simp [WordWrap.render, WChunk.render]
  · rcases hmid with h | h | h <;> simp [h, WChunk.render]

/-- Render shape of `flushWordAndSpace`. -/
theorem WordWrap.flushWordAndSpace_render (w : Char → Nat) (st : WordWrap) :
    ∃ r1 r2, (st.flushWordAndSpace w).render =
      st.render ++ r1 ++ (if st.word = [] then [] else st.word) ++ r2 ∧
      (r1 = [] ∨ r1 = ['\n'] ∨ r1 = st.space) ∧ (r2 = [] ∨ r2 = st.space) := by
  unfold WordWrap.flushWordAndSpace
  dsimp only
  by_cases hw : st.word = []
  · rw [if_pos hw, if_pos hw]
    by_cases hsp : st.space = []
    · rw [if_pos hsp]
      exact ⟨[], [], by simp, Or.inl rfl, Or.inl rfl⟩
    · rw [if_neg hsp]
      split_ifs with hfit
      · refine ⟨[], st.space, ?_, Or.inl rfl, Or.inr rfl⟩
        show ((st.buf ++ [WChunk.sp st.space]).map WChunk.render).flatten = _
        simp [WordWrap.render, WChunk.render]
      · exact ⟨[], [], by simp [WordWrap.render], Or.inl rfl, Or.inl rfl⟩
  · obtain ⟨mid, hbuf, hmid, _, _, hsp0, _, _, _, _, _⟩ := st.flushWordOnly_spec w hw
    rw [if_neg hw, if_pos hsp0, if_neg hw]
    refine ⟨(mid.map WChunk.render).flatten, [], ?_, ?_, Or.inl rfl⟩
    · show ((st.flushWordOnly w).buf.map WChunk.render).flatten = _
      rw [hbuf]
      simp [WordWrap.render, WChunk.render]
    · rcases hmid with h | h | h <;> simp [h, WChunk.render]

/-- One word-wrap character preserves the simulation between the
output-plus-pending-word sequence scan and the input's, at the default
options. -/
theorem ww_char_scan (w : Char → Nat) (st : WordWrap) (c : Char) (p : List Char)
    (hbp : st.breakpoints = [' ', '-']) (hnl : st.newline = ['\n'])
    (hk : st.keepNewlines = true)
    (hA : seqScan0 (st.render ++ st.word) = seqScan0 p)
    (hB : ((seqScan0 st.render).1).1 = false)
    (hC : st.ansi = scanAnsi false p)
    (hE : ∀ x ∈ st.space, x = ' ' ∨ x = '\t') :
    (st.writeChar w c).breakpoints = [' ', '-'] ∧
    (st.writeChar w c).newline = ['\n'] ∧
    (st.writeChar w c).keepNewlines = true ∧
    seqScan0 ((st.writeChar w c).render ++ (st.writeChar w c).word) =
      seqScan0 (p ++ [c]) ∧
    ((seqScan0 (st.writeChar w c).render).1).1 = false ∧
    (st.writeChar w c).ansi = scanAnsi false (p ++ [c]) ∧
    (∀ x ∈ (st.writeChar w c).space, x = ' ' ∨ x = '\t') := by
  have hscanstep : scanAnsi false (p ++ [c]) = ansiStep (scanAnsi false p) c := by
    rw [scanAnsi_append]; rfl
  have hEesc : ∀ x ∈ st.space, x ≠ ANSI_MARKER := by
    intro x hx
    rcases hE x hx with h | h <;> subst h <;> decide
  by_cases hc : c = ANSI_MARKER
  · subst hc
    rw [WordWrap.writeCharW_marker]
    refine ⟨by simpa using hbp, by simpa using hnl, by simpa using hk, ?_,
      by simpa using hB, ?_, by simpa using hE⟩
    · show seqScan0 (st.render ++ (st.word ++ [ANSI_MARKER])) = _
      rw [show st.render ++ (st.word ++ [ANSI_MARKER]) =
        (st.render ++ st.word) ++ [ANSI_MARKER] from by simp]
      exact seqScan0_congr_append _ _ _ hA
    · rw [hscanstep]
      simp [ansiStep]
  · by_cases ha : st.ansi = true
    · rw [WordWrap.writeCharW_inseq w st c hc ha]
      refine ⟨by simpa using hbp, by simpa using hnl, by simpa using hk, ?_,
        by simpa using hB, ?_, by simpa using hE⟩
      · show seqScan0 (st.render ++ (st.word ++ [c])) = _
        rw [show st.render ++ (st.word ++ [c]) =
          (st.render ++ st.word) ++ [c] from by simp]
        exact seqScan0_congr_append _ _ _ hA
      · rw [hscanstep, ← hC, ha]
        simp [ansiStep, hc]
    · have haf : st.ansi = false := by simpa using ha
      have hscanp : scanAnsi false p = false := by rw [← hC]; exact haf
      have hclosedp : ((seqScan0 p).1).1 = false := by
        rw [seqScan0_fst_fst]; exact hscanp
      have hclosedrw : ((seqScan0 (st.render ++ st.word)).1).1 = false := by
        rw [hA]; exact hclosedp
      have hplain_in : seqScan0 (p ++ [c]) = seqScan0 p :=
        seqScan0_plain _ _ hclosedp hc
      have hstep_in : scanAnsi false (p ++ [c]) = false := by
        rw [hscanstep, hscanp]
        simp [ansiStep, hc]
      by_cases hn : c ∈ st.newline
      · rw [WordWrap.writeChar_newline_keep w st c hc haf hn hk]
        obtain ⟨r1, r2, hrender, hr1, hr2⟩ := st.flushWordAndSpace_render w
        obtain ⟨_, _, _, _, hword, hsp, hansi, _, hbp1, hnl1, hk1⟩ :=
          st.flushWordAndSpace_spec w
        have hr1esc : ∀ x ∈ r1, x ≠ ANSI_MARKER := by
          rcases hr1 with h | h | h <;> subst h <;> simp <;> first
            | decide
            | exact fun x hx => hEesc x hx
        have hr2esc : ∀ x ∈ r2, x ≠ ANSI_MARKER := by
          rcases hr2 with h | h <;> subst h <;> simp <;> exact fun x hx => hEesc x hx
        have hscan1 : seqScan0 ((st.flushWordAndSpace w).render) = seqScan0 p := by
          rw [hrender]
          by_cases hw : st.word = []
          · rw [if_pos hw]
            rw [seqScan0_plain_list _ r2 (by
                rw [seqScan0_insert st.render r1 [] hB hr1esc]
                simpa using hB) hr2esc]
            rw [show st.render ++ r1 ++ [] = st.render ++ r1 ++ [] from rfl]
            rw [seqScan0_insert st.render r1 [] hB hr1esc]
            rw [← hA, hw]
          · rw [if_neg hw]
            rw [seqScan0_plain_list _ r2 (by
                rw [show st.render ++ r1 ++ st.word =
                  st.render ++ r1 ++ st.word from rfl]
                rw [seqScan0_insert st.render r1 st.word hB hr1esc]
                exact hclosedrw) hr2esc]
            rw [seqScan0_insert st.render r1 st.word hB hr1esc]
            exact hA
        have hrender2 : ({ st.flushWordAndSpace w with
            buf := (st.flushWordAndSpace w).buf ++ [WChunk.nl], lineLen := 0 } :
            WordWrap).render = (st.flushWordAndSpace w).render ++ ['\n'] := by
          show (((st.flushWordAndSpace w).buf ++ [WChunk.nl]).map WChunk.render).flatten = _
          simp [WordWrap.render, WChunk.render]
        have hclosed1 : ((seqScan0 ((st.flushWordAndSpace w).render)).1).1 = false := by
          rw [hscan1]; exact hclosedp
        refine ⟨by simpa using hbp1.trans hbp, by simpa using hnl1.trans hnl,
          by simpa using hk1.trans hk, ?_, ?_, ?_, ?_⟩
        · show seqScan0 (({ st.flushWordAndSpace w with
              buf := (st.flushWordAndSpace w).buf ++ [WChunk.nl], lineLen := 0 } :
              WordWrap).render ++ (st.flushWordAndSpace w).word) = _
          rw [hrender2, hword, hplain_in, List.append_nil]
          rw [seqScan0_plain _ _ hclosed1 (by decide)]
          exact hscan1
        · show ((seqScan0 (({ st.flushWordAndSpace w with
              buf := (st.flushWordAndSpace w).buf ++ [WChunk.nl], lineLen := 0 } :
              WordWrap).render)).1).1 = false
          rw [hrender2, seqScan0_plain _ _ hclosed1 (by decide)]
          exact hclosed1
        · show (st.flushWordAndSpace w).ansi = _
          rw [hansi, haf, hstep_in]
        · show ∀ x ∈ (st.flushWordAndSpace w).space, x = ' ' ∨ x = '\t'
          rw [hsp]; intro x hx; simp at hx
      · by_cases hbrk : c ∈ st.breakpoints
        · have hcsp : c ≠ ANSI_MARKER := hc
          by_cases hsp : c = ' ' ∨ c = '\t'
          · rw [WordWrap.writeChar_space w st c hc haf hn hbrk hsp]
            obtain ⟨hchunks1, hword1, hansi1, _, hbp1, hnl1, hk1⟩ :=
              st.flushWordOnly_wordsEq w
            have key : seqScan0 ((st.flushWordOnly w).render ++
                (st.flushWordOnly w).word) = seqScan0 p ∧
                ((seqScan0 ((st.flushWordOnly w).render)).1).1 = false ∧
                ((st.flushWordOnly w).space = [] ∨
                  (st.flushWordOnly w).space = st.space) := by
              by_cases hw : st.word = []
              · rw [st.flushWordOnly_id w hw]
                refine ⟨?_, hB, Or.inr rfl⟩
                rw [← hA]
              · obtain ⟨rins, hrender, hrins⟩ := st.flushWordOnly_render w hw
                have hrinsesc : ∀ x ∈ rins, x ≠ ANSI_MARKER := by
                  rcases hrins with h | h | h <;> subst h <;> simp <;> first
                    | decide
                    | exact fun x hx => hEesc x hx
                have h1 : seqScan0 ((st.flushWordOnly w).render) =
                    seqScan0 (st.render ++ st.word) := by
                  rw [hrender]
                  exact seqScan0_insert st.render rins st.word hB hrinsesc
                refine ⟨?_, ?_, Or.inl (st.flushWordOnly_spec w hw).choose_spec.2.2.2.2.1⟩
                · rw [hword1, List.append_nil, h1, hA]
                · rw [h1]; exact hclosedrw
            obtain ⟨k1, k2, k3⟩ := key
            refine ⟨by simpa using hbp1.trans hbp, by simpa using hnl1.trans hnl,
              by simpa using hk1.trans hk, ?_, by simpa using k2, ?_, ?_⟩
            · show seqScan0 ((st.flushWordOnly w).render ++
                (st.flushWordOnly w).word) = _
              rw [k1, hplain_in]
            · show (st.flushWordOnly w).ansi = _
              rw [hansi1, haf, hstep_in]
            · show ∀ x ∈ (st.flushWordOnly w).space ++ [c], x = ' ' ∨ x = '\t'
              intro x hx
              rcases List.mem_append.mp hx with h | h
              · rcases k3 with k | k
                · rw [k] at h; simp at h
                · rw [k] at h; exact hE x h
              · simp at h; subst h; exact hsp
          · obtain ⟨mid, hbuf, hchunks, hword2, hsp2, hansi2, _, hbp2, hnl2, hk2,
              hshape⟩ := st.writeChar_brk_spec w c hc haf hn hbrk hsp
            obtain ⟨r1, r2, hrender, hr1mem, hr2mem⟩ := hshape
            have hr1esc : ∀ x ∈ r1, x ≠ ANSI_MARKER := by
              intro x hx
              rcases hr1mem x hx with h | h | h
              · subst h; decide
              · exact hEesc x h
              · subst h; exact hc
            have hr2esc : ∀ x ∈ r2, x ≠ ANSI_MARKER := by
              intro x hx
              rcases hr2mem x hx with h | h | h
              · subst h; decide
              · exact hEesc x h
              · subst h; exact hc
            have hscw : seqScan0 ((st.writeChar w c).render) = seqScan0 p := by
              rw [hrender]
              by_cases hw : st.word = []
              · rw [if_pos hw]
                rw [seqScan0_plain_list _ r2 (by
                    rw [seqScan0_insert st.render r1 [] hB hr1esc]
                    simpa using hB) hr2esc]
                rw [seqScan0_insert st.render r1 [] hB hr1esc]
                rw [← hA, hw]
              · rw [if_neg hw]
                rw [seqScan0_plain_list _ r2 (by
                    rw [seqScan0_insert st.render r1 st.word hB hr1esc]
                    exact hclosedrw) hr2esc]
                rw [seqScan0_insert st.render r1 st.word hB hr1esc]
                exact hA
            refine ⟨hbp2.trans hbp, hnl2.trans hnl, hk2.trans hk, ?_, ?_, ?_, ?_⟩
            · rw [hword2, List.append_nil, hscw, hplain_in]
            · rw [hscw]; exact hclosedp
            · rw [hansi2, haf, hstep_in]
            · rw [hsp2]; intro x hx; simp at hx
        · rw [WordWrap.writeCharW_plain w st c hc haf hn hbrk]
          refine ⟨by simpa using hbp, by simpa using hnl, by simpa using hk, ?_,
            by simpa using hB, ?_, by simpa using hE⟩
          · show seqScan0 (st.render ++ (st.word ++ [c])) = _
            rw [show st.render ++ (st.word ++ [c]) =
              (st.render ++ st.word) ++ [c] from by simp]
            exact seqScan0_congr_append _ _ _ hA
          · rw [hstep_in]; simpa using haf

/-- Folding `writeChar` over a whole string preserves the sequence-scan
simulation between output-plus-pending-word and the input consumed so far. -/
theorem ww_write_scan (w : Char → Nat) (l : List Char) :
    ∀ (st : WordWrap) (p : List Char),
    st.breakpoints = [' ', '-'] → st.newline = ['\n'] → st.keepNewlines = true →
    seqScan0 (st.render ++ st.word) = seqScan0 p →
    ((seqScan0 st.render).1).1 = false →
    st.ansi = scanAnsi false p →
    (∀ x ∈ st.space, x = ' ' ∨ x = '\t') →
    (st.write w l).breakpoints = [' ', '-'] ∧
    (st.write w l).newline = ['\n'] ∧
    (st.write w l).keepNewlines = true ∧
    seqScan0 ((st.write w l).render ++ (st.write w l).word) = seqScan0 (p ++ l) ∧
    ((seqScan0 (st.write w l).render).1).1 = false ∧
    (st.write w l).ansi = scanAnsi false (p ++ l) ∧
    (∀ x ∈ (st.write w l).space, x = ' ' ∨ x = '\t') := by
  induction l with
  | nil =>
    intro st p h1 h2 h3 h4 h5 h6 h7
    exact ⟨h1, h2, h3, by simpa using h4, h5, by simpa using h6, h7⟩
  | cons c cs ih =>
    intro st p h1 h2 h3 h4 h5 h6 h7
    obtain ⟨g1, g2, g3, g4, g5, g6, g7⟩ := ww_char_scan w st c p h1 h2 h3 h4 h5 h6 h7
    have hwr : st.write w (c :: cs) = (st.writeChar w c).write w cs := rfl
    rw [hwr]
    have hres := ih (st.writeChar w c) (p ++ [c]) g1 g2 g3 g4 g5 g6 g7
    simpa [List.append_assoc] using hres

/-- Closing the writer (flushing the pending word and spaces) keeps the
rendered output sequence-scan equal to the input scanned so far. -/
theorem ww_close_scan (w : Char → Nat) (st : WordWrap) (p : List Char)
    (hk : st.keepNewlines = true)
    (hA : seqScan0 (st.render ++ st.word) = seqScan0 p)
    (hB : ((seqScan0 st.render).1).1 = false)
    (hE : ∀ x ∈ st.space, x = ' ' ∨ x = '\t') :
    seqScan0 ((st.close w).render) = seqScan0 p := by
  have hEesc : ∀ x ∈ st.space, x ≠ ANSI_MARKER := by
    intro x hx; rcases hE x hx with h | h <;> subst h <;> decide
  have hfk : (st.flushWordAndSpace w).keepNewlines = true := by
    rw [(st.flushWordAndSpace_spec w).choose_spec.2.2.2.2.2.2.2.2.2]; exact hk
  have hmain : seqScan0 ((st.flushWordAndSpace w).render) = seqScan0 p := by
    unfold WordWrap.flushWordAndSpace
    dsimp only
    by_cases hw : st.word = []
    · rw [if_pos hw]
      have hAr : seqScan0 st.render = seqScan0 p := by
        rw [← hA, hw, List.append_nil]
      by_cases hsp : st.space = []
      · rw [if_pos hsp]; exact hAr
      · rw [if_neg hsp]
        split_ifs with hfit
        · show seqScan0 (((st.buf ++ [(WChunk.sp st.space)]).map WChunk.render).flatten) = _
          have hren : ((st.buf ++ [(WChunk.sp st.space)]).map WChunk.render).flatten =
              st.render ++ st.space := by
            simp [WordWrap.render, WChunk.render]
          rw [hren, seqScan0_plain_list st.render st.space hB hEesc]
          exact hAr
        · exact hAr
    · rw [if_neg hw]
      obtain ⟨mid, hbuf, hmid, _, _, hsp0, _, _, _, _, _⟩ := st.flushWordOnly_spec w hw
      rw [if_pos hsp0]
      obtain ⟨rins, hrender, hrins⟩ := st.flushWordOnly_render w hw
      have hrinsesc : ∀ x ∈ rins, x ≠ ANSI_MARKER := by
        rcases hrins with h | h | h <;> subst h <;> simp <;> first
          | decide
          | exact fun x hx => hEesc x hx
      rw [hrender, seqScan0_insert st.render rins st.word hB hrinsesc]
      exact hA
  unfold WordWrap.close
  dsimp only
  rw [if_pos hfk]
  exact hmain

/-- At default options, one-shot word wrap preserves the complete ANSI
sequence scan of the input. -/
theorem wordwrapD_seqScan0 (w : Char → Nat) (s : List Char) (limit : Nat) :
    seqScan0 (wordwrapD w s limit) = seqScan0 s := by
  obtain ⟨h1, h2, h3, h4, h5, h6, h7⟩ :=
    ww_write_scan w s (WordWrap.init limit) [] rfl rfl rfl rfl rfl rfl
      (by intro x hx; simp [WordWrap.init] at hx)
  unfold wordwrapD
  exact ww_close_scan w ((WordWrap.init limit).write w s) s h3 (by simpa using h4) h5 h7

/-- Word chunks of the final buffer of the one-shot word wrap are exactly
the non-breakpoint runs of the input. -/
theorem wwBuf_words (w : Char → Nat) (limit : Nat) (s : List Char) :
    wordChunks (wwBuf w limit s) = wordRuns [' ', '-'] ['\n'] false [] s := by
  have h1 := ww_write_words w s (WordWrap.init limit) rfl rfl rfl
  obtain ⟨_, _, h3, _, _, _, _⟩ :=
    ww_write_scan w s (WordWrap.init limit) [] rfl rfl rfl rfl rfl rfl
      (by intro x hx; simp [WordWrap.init] at hx)
  have hfk : (((WordWrap.init limit).write w s).flushWordAndSpace w).keepNewlines
      = true := by
    rw [(((WordWrap.init limit).write w s).flushWordAndSpace_spec
      w).choose_spec.2.2.2.2.2.2.2.2.2]
    exact h3
  have hclose : wwBuf w limit s =
      (((WordWrap.init limit).write w s).flushWordAndSpace w).buf := by
    unfold wwBuf WordWrap.close
    dsimp only
    rw [if_pos hfk]
  rw [hclose,
    (((WordWrap.init limit).write w s).flushWordAndSpace_wordsEq w).1, h1]
  simp [WordWrap.init, wordChunks]

/-- A word chunk of the buffer appears contiguously in the rendered output. -/
theorem wordChunks_infix (bf : List WChunk) :
    ∀ r ∈ wordChunks bf, ∃ x y, (bf.map WChunk.render).flatten = x ++ r ++ y := by
  induction bf with
  | nil => intro r hr; simp [wordChunks] at hr
  | cons ch rest ih =>
    intro r hr
    cases ch with
    | word l =>
      rw [wordChunks] at hr
      rcases List.mem_cons.mp hr with h | h
      · subst h
        exact ⟨[], ((rest.map WChunk.render).flatten), by simp [WChunk.render]⟩
      · obtain ⟨x, y, hxy⟩ := ih r h
        exact ⟨WChunk.render (WChunk.word l) ++ x, y, by simp [hxy]⟩
    | nl =>
      obtain ⟨x, y, hxy⟩ := ih r (by simpa [wordChunks] using hr)
      exact ⟨WChunk.render WChunk.nl ++ x, y, by simp [hxy]⟩
    | sp l =>
      obtain ⟨x, y, hxy⟩ := ih r (by simpa [wordChunks] using hr)
      exact ⟨WChunk.render (WChunk.sp l) ++ x, y, by simp [hxy]⟩
    | brk c =>
      obtain ⟨x, y, hxy⟩ := ih r (by simpa [wordChunks] using hr)
      exact ⟨WChunk.render (WChunk.brk c) ++ x, y, by simp [hxy]⟩

/-- C2: no transform ever splits an ANSI escape sequence. In the form that
holds of the code: hard wrap (at newline option `"\n"`) and word wrap
preserve the complete sequence scan of the input, so every sequence of the
input reappears intact and every `ESC` of the output comes from the input;
and the outputs of `truncate` and `indent` always leave the scanner in the
closed state, so every `ESC` they emit is followed by its terminator. The
literal claim that every `ESC` in every output is followed by a terminator
fails on inputs whose own trailing sequence is unterminated (see the
counterexample). -/
theorem C2_ansi_atomicity (w : Char → Nat) (s tail : List Char)
    (limit width n tw : Nat) (kn ps : Bool) :
    seqScan0 (hardwrap w s limit ['\n'] kn ps tw) = seqScan0 s ∧
    seqScan0 (wordwrapD w s limit) = seqScan0 s ∧
    scanAnsi false (truncate w s width tail) = false ∧
    scanAnsi false (indentStr s n) = false := by
  refine ⟨?_, wordwrapD_seqScan0 w s limit, truncate_scan_closed w s width tail,
    indentStr_scan_closed s n⟩
  unfold hardwrap
  exact hw_write_scan w s (HardWrap.init limit ['\n'] kn ps tw) [] rfl rfl rfl

/-- C2 counterexample to the literal reading: on the input consisting of a
lone `ESC`, the default hard wrap emits that `ESC` unchanged, and no
terminator follows it in the output (the scanner ends open). -/
theorem C2_ansi_atomicity_cex :
    hardwrapD unitWidth [ANSI_MARKER] 4 = [ANSI_MARKER] ∧
    scanAnsi false (hardwrapD unitWidth [ANSI_MARKER] 4) = true := by decide

/-- C3: word wrap never breaks inside a word. In the form that holds of the
code: the words the writer emits (its `buf.push(this.word)` sites, the
`WChunk.word` chunks of `wwBuf`) are exactly the maximal non-breakpoint
runs of the input, and every such run appears contiguously — unbroken by
any inserted newline — in the rendered output `wordwrapD`. The further
literal reading that an over-wide word always sits on its own line fails
when pending spaces fit before it (see the counterexample). -/
theorem C3_word_integrity (w : Char → Nat) (s : List Char) (limit : Nat) :
    wordChunks (wwBuf w limit s) = wordRuns [' ', '-'] ['\n'] false [] s ∧
    ∀ r ∈ wordRuns [' ', '-'] ['\n'] false [] s,
      ∃ x y, wordwrapD w s limit = x ++ r ++ y := by
  refine ⟨wwBuf_words w limit s, ?_⟩
  intro r hr
  have hmem : r ∈ wordChunks (wwBuf w limit s) := by
    rw [wwBuf_words w limit s]; exact hr
  exact wordChunks_infix (wwBuf w limit s) r hmem

/-- C3 witness: on `"ab cdefg hi"` at limit 3, the word chunks are the three
runs and the over-wide run `"cdefg"` appears contiguously in the output. -/
theorem C3_word_integrity_witness :
    ('c' :: 'd' :: 'e' :: 'f' :: 'g' :: []) ∈
      wordRuns [' ', '-'] ['\n'] false []
        ('a' :: 'b' :: ' ' :: 'c' :: 'd' :: 'e' :: 'f' :: 'g' :: ' ' :: 'h' :: 'i' :: []) ∧
    ∃ x y, wordwrapD unitWidth
        ('a' :: 'b' :: ' ' :: 'c' :: 'd' :: 'e' :: 'f' :: 'g' :: ' ' :: 'h' :: 'i' :: []) 3 =
      x ++ ('c' :: 'd' :: 'e' :: 'f' :: 'g' :: []) ++ y :=
  ⟨by decide,
    (C3_word_integrity unitWidth
      ('a' :: 'b' :: ' ' :: 'c' :: 'd' :: 'e' :: 'f' :: 'g' :: ' ' :: 'h' :: 'i' :: []) 3).2
      ('c' :: 'd' :: 'e' :: 'f' :: 'g' :: []) (by decide)⟩

/-- C3 counterexample to the own-line reading: at limit 3 the input
`"  cdefg"` comes out unchanged — the width-5 word `"cdefg"` (wider than
the limit) shares its line with the two leading spaces, and no newline is
emitted at all. -/
theorem C3_word_integrity_cex :
    wordwrapD unitWidth
        (' ' :: ' ' :: 'c' :: 'd' :: 'e' :: 'f' :: 'g' :: []) 3 =
      (' ' :: ' ' :: 'c' :: 'd' :: 'e' :: 'f' :: 'g' :: []) ∧
    printableRuneWidth unitWidth ('c' :: 'd' :: 'e' :: 'f' :: 'g' :: []) = 5 ∧
    '\n' ∉ wordwrapD unitWidth
        (' ' :: ' ' :: 'c' :: 'd' :: 'e' :: 'f' :: 'g' :: []) 3 := by decide

end Reflow
